import Mathlib

/-!
Verification development for `tensorflow/tools/docs/build_comprehensive_java_api_docs.py`.

The script assembles a merged Java source tree on disk from several subtree
mappings and falls back to a reduced composition when the full one fails.  We
embed the filesystem state as a pair of finite maps (files with their byte
contents, and directories), and each Python operation used by the script
(`pathlib.Path.mkdir`, `shutil.copyfile`, `shutil.copytree`, `Path.rglob`) as
an executable Lean function on that state.  Source directory trees are embedded
as an inductive `Tree`; `Path.rglob('*')` enumerates a directory's children
before the contents of its subdirectories, which the embedding mirrors.
-/

set_option autoImplicit false

namespace JavaDocs

/-- A path relative to a root directory: the list of path components. -/
abbrev FPath := List String

/-- The exceptions the script can encounter, at the granularity the code
distinguishes them: `FileExistsError`, `FileNotFoundError`,
`IsADirectoryError`, `NotADirectoryError` from filesystem calls, a failed
repository synchronization (GitPython / `git` subprocess errors), a failed
spawn of an external process (`OSError` from `Popen`/`check_call`), and
`subprocess.CalledProcessError` from a nonzero exit of `bazel build`. -/
inductive Err where
  | fileExists
  | fileNotFound
  | isADirectory
  | notADirectory
  | syncFail
  | spawnFail
  | calledProcess
deriving DecidableEq

/-- Filesystem state under one root: an association list from paths to file
contents (later entries shadowed by earlier ones) and a list of directories.
The root `[]` itself always exists as a directory. -/
structure FS where
  files : List (FPath × String)
  dirs : List FPath
deriving DecidableEq

/-- First-match lookup in an association list of files. -/
def lookupF : List (FPath × String) → FPath → Option String
  | [], _ => none
  | (q, c) :: rest, p => if q = p then some c else lookupF rest p

/-- Whether `p` is an existing regular file. -/
def FS.isFile (fs : FS) (p : FPath) : Bool := (lookupF fs.files p).isSome

/-- Whether `p` is an existing directory (the root always is). -/
def FS.isDir (fs : FS) (p : FPath) : Bool := p.isEmpty || decide (p ∈ fs.dirs)

/-- Python `Path.exists()`: `p` is an existing file or directory. -/
def FS.pathExists (fs : FS) (p : FPath) : Bool := fs.isFile p || fs.isDir p

/-- Create or truncate-and-rewrite the regular file at `p`. -/
def FS.writeFile (fs : FS) (p : FPath) (c : String) : FS :=
  ⟨(p, c) :: fs.files, fs.dirs⟩

/-- Record the directory `p`. -/
def FS.addDir (fs : FS) (p : FPath) : FS := ⟨fs.files, p :: fs.dirs⟩

/-- Ensure each path of the list in turn is a directory, creating missing
ones, as `os.makedirs` / `Path.mkdir(parents=True, exist_ok=True)` do along
the chain of ancestors.  A path that exists as a regular file stops the walk
with `FileExistsError` when it is the final target and `NotADirectoryError`
when it is a strict ancestor.  Directories created before the failure remain,
as they do on a real filesystem. -/
def FS.mkdirChain (fs : FS) : List FPath → FS × Option Err
  | [] => (fs, none)
  | r :: rs =>
    if fs.isDir r then fs.mkdirChain rs
    else if fs.isFile r then
      (fs, some (if rs.isEmpty then .fileExists else .notADirectory))
    else (fs.addDir r).mkdirChain rs

/-- All nonempty prefixes of `q`, shortest first. -/
def prefList (q : FPath) : List FPath :=
  (List.range q.length).map (fun i => q.take (i + 1))

/-- Python `Path(q).mkdir(parents=True, exist_ok=True)`. -/
def FS.mkdirP (fs : FS) (q : FPath) : FS × Option Err := fs.mkdirChain (prefList q)

/-- Python `shutil.copyfile(src, p)` with source content `c`: fails with
`IsADirectoryError` if `p` is a directory, with `FileNotFoundError` if the
parent directory is missing, otherwise creates or overwrites the file. -/
def FS.copyfile (fs : FS) (p : FPath) (c : String) : FS × Option Err :=
  if fs.isDir p then (fs, some .isADirectory)
  else if fs.isDir p.dropLast then (fs.writeFile p c, none)
  else (fs, some .fileNotFound)

/-- One entry yielded by `Path.rglob('*')`: a regular file with its content,
or a directory. -/
inductive FSEntry where
  | file (content : String)
  | dirE
deriving DecidableEq

/-- Result of running (part of) `overlay`: the filesystem reached, the
collision notices printed (`"Warning: Overwriting ..."`, identified by the
destination path), and the exception that aborted the walk, if any. -/
structure ORes where
  fs : FS
  notices : List FPath
  err : Option Err
deriving DecidableEq

/-- One iteration of the loop body of `overlay` for the entry at destination
path `p`:

if the source entry is a file and the destination exists, print the
overwrite notice, otherwise create the destination's parent directories;
then copy the file; a source directory is created with
mkdir(exist_ok=True). -/
def stepEntry (fs : FS) (p : FPath) (e : FSEntry) : ORes :=
  match e with
  | .file c =>
    if fs.pathExists p then
      match fs.copyfile p c with
      | (fs', err) => ⟨fs', [p], err⟩
    else
      match fs.mkdirP p.dropLast with
      | (fs', some er) => ⟨fs', [], some er⟩
      | (fs', none) =>
        match fs'.copyfile p c with
        | (fs'', err) => ⟨fs'', [], err⟩
  | .dirE =>
    if fs.isDir p then ⟨fs, [], none⟩
    else if fs.pathExists p then ⟨fs, [], some .fileExists⟩
    else if fs.isDir p.dropLast then ⟨fs.addDir p, [], none⟩
    else ⟨fs, [], some .fileNotFound⟩

/-- Run the `overlay` loop over a list of entries, stopping at the first
exception, accumulating the printed collision notices. -/
def runEntries (fs : FS) : List (FPath × FSEntry) → ORes
  | [] => ⟨fs, [], none⟩
  | (p, e) :: rest =>
    match stepEntry fs p e with
    | ⟨fs', ns, some er⟩ => ⟨fs', ns, some er⟩
    | ⟨fs', ns, none⟩ =>
      match runEntries fs' rest with
      | ⟨fs'', ns', err⟩ => ⟨fs'', ns ++ ns', err⟩

mutual
/-- A directory entry of a source tree. -/
inductive TEntry where
  | file (content : String)
  | dir (sub : Tree)
/-- A source directory tree: the ordered list of its named entries
(`os.scandir` order). -/
inductive Tree where
  | nil : Tree
  | node (name : String) (entry : TEntry) (rest : Tree) : Tree
end

/-- The kind of an entry as seen by the `overlay` walk. -/
def kindOf : TEntry → FSEntry
  | .file c => .file c
  | .dir _ => .dirE

/-- The named entries of a tree, as an association list. -/
def Tree.entries : Tree → List (String × TEntry)
  | .nil => []
  | .node n e rest => (n, e) :: rest.entries

/-- The entry names of a tree. -/
def Tree.names : Tree → List String
  | .nil => []
  | .node n _ rest => n :: rest.names

/-- The first entry named `n`, as directory listing would resolve it. -/
def Tree.find : Tree → String → Option TEntry
  | .nil, _ => none
  | .node m e rest, n => if m = n then some e else rest.find n

/-- The immediate children of a tree, with singleton relative paths. -/
def Tree.children : Tree → List (FPath × FSEntry)
  | .nil => []
  | .node n e rest => ([n], kindOf e) :: rest.children

/-- The entries strictly below the immediate children, in the order
`Path.rglob('*')` yields them: for each subdirectory in turn, all of its
entries (children first, recursively). -/
def Tree.recs : Tree → List (FPath × FSEntry)
  | .nil => []
  | .node _ (.file _) rest => rest.recs
  | .node n (.dir sub) rest =>
    ((sub.children ++ sub.recs).map (fun pe => (n :: pe.1, pe.2))) ++ rest.recs

/-- Python `Path(root).rglob('*')`: every entry below the root with its relative
path, a directory always listed before its contents. -/
def Tree.rglob (t : Tree) : List (FPath × FSEntry) := t.children ++ t.recs

mutual
/-- Well-formedness of a source tree: sibling names are distinct, as they are
in any real directory. -/
def Tree.WF : Tree → Bool
  | .nil => true
  | .node n e rest => !(decide (n ∈ rest.names)) && TEntry.eWF e && rest.WF
def TEntry.eWF : TEntry → Bool
  | .file _ => true
  | .dir sub => sub.WF
end

/-- The entry of the tree at a nonempty relative path. -/
def Tree.lookupPath : Tree → FPath → Option TEntry
  | _, [] => none
  | t, [n] => t.find n
  | t, n :: rest =>
    match t.find n with
    | some (.dir sub) => sub.lookupPath rest
    | _ => none

/-- The `rglob` entries of `t` relocated under the destination root `dst`. -/
def destEntries (dst : FPath) (t : Tree) : List (FPath × FSEntry) :=
  (t.rglob).map (fun pe => (dst ++ pe.1, pe.2))

/-- The function `overlay(from_root, to_root)` of the script (lines 122-134): walk every
entry under the source root and copy it onto the destination, printing a
notice before overwriting an existing destination file, creating missing
directories, and letting the first filesystem exception propagate. -/
def overlay (from_root : Tree) (to_root : FPath) (fs : FS) : ORes :=
  runEntries fs (destEntries to_root from_root)

/-- Write every file and directory of the given entries, used for the
recursive copy performed by `shutil.copytree` into a fresh destination. -/
def writeAll : List (FPath × FSEntry) → FS → FS
  | [], fs => fs
  | (p, .file c) :: rest, fs => writeAll rest (fs.writeFile p c)
  | (p, .dirE) :: rest, fs => writeAll rest (fs.addDir p)

/-- The filesystem after copying all of `t` below `dst`. -/
def copyAll (t : Tree) (dst : FPath) (fs : FS) : FS := writeAll (destEntries dst t) fs

/-- Python `shutil.copytree(src, dst)` with default `dirs_exist_ok=False`: raises
`FileExistsError` when the destination already exists, otherwise creates the
destination directory chain (`os.makedirs`) and duplicates the whole source
subtree below it. -/
def copytree (t : Tree) (dst : FPath) (fs : FS) : Except Err FS :=
  if fs.pathExists dst then .error .fileExists
  else
    match fs.mkdirP dst with
    | (_, some er) => .error er
    | (fs', none) => .ok (copyAll t dst fs')

/-- The subtrees of the external checkouts that the composer reads, named
after the local variables of `build_comprehensive_java_docs`; `none` means the
corresponding source directory does not exist on disk. -/
structure RepoLayout where
  tf_java_core_api : Option Tree
  tf_java_gen_api : Option Tree
  tf_java_native_proto : Option Tree
  tf_java_exceptions : Option Tree
  tf_java_c_api : Option Tree
  tf_java_framework : Option Tree
  ndarray_source : Option Tree

/-- The seven subtree mappings of the full composition, in program order. -/
inductive MapIdx where
  | core | gen | proto | exc | capi | fw | nd
deriving DecidableEq

/-- The source subtree a mapping copies from. -/
def mapSrc (r : RepoLayout) : MapIdx → Option Tree
  | .core => r.tf_java_core_api
  | .gen => r.tf_java_gen_api
  | .proto => r.tf_java_native_proto
  | .exc => r.tf_java_exceptions
  | .capi => r.tf_java_c_api
  | .fw => r.tf_java_framework
  | .nd => r.ndarray_source

/-- The destination of each mapping below the merged root. -/
def mapDst : MapIdx → FPath
  | .core => ["java", "org", "tensorflow"]
  | .gen => ["java", "org", "tensorflow"]
  | .proto => ["java", "org", "tensorflow", "proto"]
  | .exc => ["java", "org", "tensorflow", "exceptions"]
  | .capi => ["java", "org", "tensorflow", "internal", "c_api"]
  | .fw => ["java", "org", "tensorflow", "framework"]
  | .nd => ["java", "org", "tensorflow", "ndarray"]

/-- Which mappings the script applies with `overlay`; all others use
`shutil.copytree`. -/
def isOverlayMode : MapIdx → Bool
  | .gen => true
  | _ => false

/-- Composition state: the merged filesystem and the collision notices
printed so far. -/
structure St where
  fs : FS
  notices : List FPath
deriving DecidableEq

/-- One `if <src>.exists(): copytree/overlay(...)` block of the composer. -/
def applyMapping (r : RepoLayout) (i : MapIdx) (s : St) : Except Err St :=
  match mapSrc r i with
  | none => .ok s
  | some t =>
    if isOverlayMode i then
      match overlay t (mapDst i) s.fs with
      | ⟨fs', ns, none⟩ => .ok ⟨fs', s.notices ++ ns⟩
      | ⟨_, _, some er⟩ => .error er
    else
      match copytree t (mapDst i) s.fs with
      | .ok fs' => .ok ⟨fs', s.notices⟩
      | .error er => .error er

/-- Apply a sequence of mappings in order, an exception aborting the rest. -/
def applyMappings (r : RepoLayout) : List MapIdx → St → Except Err St
  | [], s => .ok s
  | i :: is, s =>
    match applyMapping r i s with
    | .ok s' => applyMappings r is s'
    | .error er => .error er

/-- The ordered mapping sequence of the full composition. -/
def seqIdx : List MapIdx := [.core, .gen, .proto, .exc, .capi, .fw, .nd]

/-- The function `build_comprehensive_java_docs(merged_source)` (lines 168-210): create
`java/org` under the merged root, check out the external repositories
(`sync`, whose failure propagates), then apply the mapping sequence. -/
def build_comprehensive_java_docs (sync : Except Err RepoLayout) (fs : FS) :
    Except Err St :=
  match fs.mkdirP ["java", "org"] with
  | (_, some er) => .error er
  | (fs0, none) =>
    match sync with
    | .error er => .error er
    | .ok r => applyMappings r seqIdx ⟨fs0, []⟩

/-- Outcome of the external `configure`/`bazel build` invocation of the
optional ops-generation step: the `bazel` call exits nonzero
(`subprocess.check_call` raises `CalledProcessError`), a process fails to
spawn at all (`OSError`, e.g. the executable is missing), or the build
completes and the generated-ops source directory either exists with the given
content or does not. -/
inductive BazelOutcome where
  | exitNonzero
  | spawnFail
  | built (op_source : Option Tree)

/-- The function `build_traditional_tensorflow_java_docs(merged_source)` (lines 137-165):
if the locally checked-in primary source directory exists, copy it to
`<merged>/java`; then, when `gen_ops` is set, attempt the ops build inside a
`try` whose `except` clause catches only `subprocess.CalledProcessError`, and
copy the generated ops (when present) to `<merged>/java/org/tensorflow/ops`.
-/
def build_traditional_tensorflow_java_docs
    (tf_java_source : Option Tree) (bazel : BazelOutcome) (gen_ops : Bool)
    (fs : FS) : Except Err FS :=
  match tf_java_source with
  | none => .ok fs
  | some pt =>
    match copytree pt ["java"] fs with
    | .error er => .error er
    | .ok fs1 =>
      if gen_ops then
        match bazel with
        | .exitNonzero => .ok fs1
        | .spawnFail => .error .spawnFail
        | .built none => .ok fs1
        | .built (some opT) =>
          match copytree opT ["java", "org", "tensorflow", "ops"] fs1 with
          | .ok fs2 => .ok fs2
          | .error er => .error er
      else .ok fs1

/-- The function `main` (lines 213-242): try the full composition in a fresh temporary
tree; on any exception, discard that tree, allocate a fresh one, and build the
reduced composition there.  The returned filesystem is the merged tree handed
to documentation generation. -/
def main (sync : Except Err RepoLayout) (tf_java_source : Option Tree)
    (bazel : BazelOutcome) (gen_ops : Bool) : Except Err FS :=
  match build_comprehensive_java_docs sync ⟨[], []⟩ with
  | .ok s => .ok s.fs
  | .error _ =>
    build_traditional_tensorflow_java_docs tf_java_source bazel gen_ops ⟨[], []⟩

/-- Whether `a` is a (possibly equal) leading portion of the path `b`. -/
def isPre (a b : FPath) : Prop := ∃ r, a ++ r = b

/-- The paths of a list of entries. -/
def pathsOf (es : List (FPath × FSEntry)) : List FPath := es.map Prod.fst

/-- The destination paths of the files of `t`, in `rglob` order: the notices
a second, duplicate `overlay` run prints. -/
def fileDests (dst : FPath) (t : Tree) : List FPath :=
  (t.rglob).filterMap
    (fun pe => match pe.2 with | .file _ => some (dst ++ pe.1) | .dirE => none)

/-- The destination already realizes an entry: a file holds its content (and
is not shadowed by a directory, its parent existing), a directory exists. -/
def doneEntry (fs : FS) (p : FPath) (e : FSEntry) : Prop :=
  match e with
  | .file c =>
    lookupF fs.files p = some c ∧ fs.isDir p = false ∧ fs.isDir p.dropLast = true
  | .dirE => fs.isDir p = true

/-- A fresh, empty merged tree (`tempfile.mkdtemp()`). -/
def emptyFS : FS := ⟨[], []⟩

/-- Concrete fixtures used in the concrete checks below. -/
def exA : Tree := .node "a.txt" (.file "A") .nil

def exB : Tree := .node "x.txt" (.file "b") .nil

def exC : Tree := .node "x.txt" (.file "c") .nil

def exFsA : FS := ⟨[(["ns", "a.txt"], "A")], [["ns"]]⟩

def exFsFileA : FS := ⟨[(["a"], "f")], []⟩

def exCore : Tree := .node "proto" (.dir .nil) .nil

def exProto : Tree := .node "P.java" (.file "p") .nil

def exRepo1 : RepoLayout := ⟨some exCore, none, some exProto, none, none, none, none⟩

def exRepo2 : RepoLayout := ⟨none, some exB, none, none, none, none, none⟩

def exPrimaryOps : Tree :=
  .node "org" (.dir (.node "tensorflow" (.dir (.node "ops" (.dir .nil) .nil)) .nil)) .nil

def exOps : Tree := .node "Op.java" (.file "g") .nil

def exDirTree : Tree := .node "d" (.dir .nil) .nil

def exFsConflict : FS := ⟨[(["dst", "d"], "old")], [["dst"]]⟩

def exFsGen : FS := ⟨[(["java", "org", "tensorflow", "x.txt"], "old")],
  [["java"], ["java", "org"], ["java", "org", "tensorflow"]]⟩

def exStProto : St := ⟨⟨[], [["java", "org", "tensorflow", "proto"]]⟩, []⟩

def exFsJavaB : FS := ⟨[(["java", "x.txt"], "b")], [["java"]]⟩

/-! ### Basic lemmas about paths and the filesystem state -/

theorem isPre_refl (p : FPath) : isPre p p := ⟨[], List.append_nil p⟩

theorem isPre_trans {a b c : FPath} (h1 : isPre a b) (h2 : isPre b c) : isPre a c := by
  obtain ⟨r1, hr1⟩ := h1
  obtain ⟨r2, hr2⟩ := h2
  exact ⟨r1 ++ r2, by rw [← List.append_assoc, hr1, hr2]⟩

theorem isPre_take (r : FPath) (n : Nat) : isPre (r.take n) r :=
  ⟨r.drop n, List.take_append_drop n r⟩

theorem isPre_length {a b : FPath} (h : isPre a b) : a.length ≤ b.length := by
  obtain ⟨r, hr⟩ := h
  subst hr
  simp

theorem isPre_nil {a : FPath} (h : isPre a []) : a = [] := by
  obtain ⟨r, hr⟩ := h
  exact List.append_eq_nil.mp hr |>.1

theorem isPre_dropLast (p : FPath) : isPre p.dropLast p := by
  rcases List.eq_nil_or_concat p with h | ⟨q, x, h⟩
  · subst h; exact isPre_refl []
  · subst h; exact ⟨[x], by simp⟩

theorem mem_prefList {q r : FPath} (h : q ∈ prefList r) :
    isPre q r ∧ q.length < r.length + 1 := by
  unfold prefList at h
  obtain ⟨i, hi, hq⟩ := List.mem_map.mp h
  rw [List.mem_range] at hi
  subst hq
  refine ⟨isPre_take r (i + 1), ?_⟩
  have := List.length_take (i + 1) r
  omega

theorem mem_prefList_dropLast {q p : FPath} (h : q ∈ prefList p.dropLast) :
    isPre q p ∧ q ≠ p := by
  obtain ⟨h1, h2⟩ := mem_prefList h
  have hlen : p.dropLast.length = p.length - 1 := List.length_dropLast p
  have hqp : isPre q p := isPre_trans h1 (isPre_dropLast p)
  refine ⟨hqp, ?_⟩
  intro hq
  subst hq
  have := isPre_length h1
  -- q = p is a leading portion of p.dropLast, which is strictly shorter
  rcases List.eq_nil_or_concat q with hnil | ⟨l, x, hcon⟩
  · subst hnil; simp [prefList] at h
  · have hpos : 0 < q.length := by rw [hcon]; simp
    omega

@[simp] theorem addDir_files (fs : FS) (p : FPath) : (fs.addDir p).files = fs.files := rfl

@[simp] theorem addDir_dirs (fs : FS) (p : FPath) : (fs.addDir p).dirs = p :: fs.dirs := rfl

@[simp] theorem writeFile_files (fs : FS) (p : FPath) (c : String) :
    (fs.writeFile p c).files = (p, c) :: fs.files := rfl

@[simp] theorem writeFile_dirs (fs : FS) (p : FPath) (c : String) :
    (fs.writeFile p c).dirs = fs.dirs := rfl

theorem lookupF_cons_self {files : List (FPath × String)} {p : FPath} {c : String} :
    lookupF ((p, c) :: files) p = some c := by
  simp [lookupF]

theorem lookupF_cons_other {files : List (FPath × String)} {p q : FPath} {c : String}
    (h : q ≠ p) : lookupF ((p, c) :: files) q = lookupF files q := by
  have he : lookupF ((p, c) :: files) q = if p = q then some c else lookupF files q := rfl
  rw [he, if_neg (fun h' => h h'.symm)]

theorem isDir_addDir {fs : FS} {p q : FPath} :
    (fs.addDir p).isDir q = true ↔ q = p ∨ fs.isDir q = true := by
  simp only [FS.isDir, addDir_dirs, Bool.or_eq_true, List.isEmpty_iff,
    decide_eq_true_eq, List.mem_cons]
  tauto

theorem isDir_addDir_mono {fs : FS} {p q : FPath} (h : fs.isDir q = true) :
    (fs.addDir p).isDir q = true := isDir_addDir.mpr (Or.inr h)

theorem isDir_of_writeFile {fs : FS} {p q : FPath} {c : String} :
    (fs.writeFile p c).isDir q = fs.isDir q := rfl

theorem mkdirChain_files (l : List FPath) : ∀ fs : FS, ((fs.mkdirChain l).1).files = fs.files := by
  induction l with
  | nil => intro fs; rfl
  | cons r rs ih =>
    intro fs
    unfold FS.mkdirChain
    cases h1 : fs.isDir r with
    | true => simpa [h1] using ih fs
    | false =>
      cases h2 : fs.isFile r with
      | true => simp [h1, h2]
      | false => simpa [h1, h2] using ih (fs.addDir r)

theorem mkdirChain_dirs_mono (l : List FPath) :
    ∀ fs : FS, ∀ q : FPath, fs.isDir q = true → ((fs.mkdirChain l).1).isDir q = true := by
  induction l with
  | nil => intro fs q hq; exact hq
  | cons r rs ih =>
    intro fs q hq
    unfold FS.mkdirChain
    cases h1 : fs.isDir r with
    | true => simpa [h1] using ih fs q hq
    | false =>
      cases h2 : fs.isFile r with
      | true => simpa [h1, h2] using hq
      | false => simpa [h1, h2] using ih (fs.addDir r) q (isDir_addDir_mono hq)

theorem mkdirChain_dirs_new (l : List FPath) :
    ∀ fs : FS, ∀ q : FPath, ((fs.mkdirChain l).1).isDir q = true →
      fs.isDir q = true ∨ (q ∈ l ∧ fs.isFile q = false) := by
  induction l with
  | nil => intro fs q hq; exact Or.inl hq
  | cons r rs ih =>
    intro fs q hq
    unfold FS.mkdirChain at hq
    cases h1 : fs.isDir r with
    | true =>
      rw [h1] at hq; simp only [if_true] at hq
      rcases ih fs q hq with h | ⟨hm, hf⟩
      · exact Or.inl h
      · exact Or.inr ⟨List.mem_cons_of_mem r hm, hf⟩
    | false =>
      rw [h1] at hq; simp only [if_false, Bool.false_eq_true] at hq
      cases h2 : fs.isFile r with
      | true => rw [h2] at hq; simp only [if_true] at hq; exact Or.inl hq
      | false =>
        rw [h2] at hq; simp only [if_false, Bool.false_eq_true] at hq
        rcases ih (fs.addDir r) q hq with h | ⟨hm, hf⟩
        · rcases isDir_addDir.mp h with rfl | h'
          · exact Or.inr ⟨List.mem_cons_self q rs, h2⟩
          · exact Or.inl h'
        · rw [show (fs.addDir r).isFile q = fs.isFile q from rfl] at hf
          exact Or.inr ⟨List.mem_cons_of_mem r hm, hf⟩

theorem mkdirChain_ok_isDir (l : List FPath) :
    ∀ fs : FS, (fs.mkdirChain l).2 = none →
      ∀ q ∈ l, ((fs.mkdirChain l).1).isDir q = true := by
  induction l with
  | nil => intro fs _ q hq; cases hq
  | cons r rs ih =>
    intro fs hok q hq
    unfold FS.mkdirChain at hok ⊢
    cases h1 : fs.isDir r with
    | true =>
      rw [h1] at hok; simp only [if_true] at hok
      simp only [if_true]
      rcases List.mem_cons.mp hq with rfl | hm
      · exact mkdirChain_dirs_mono rs fs q h1
      · exact ih fs hok q hm
    | false =>
      rw [h1] at hok
      simp only [if_false, Bool.false_eq_true] at hok ⊢
      cases h2 : fs.isFile r with
      | true => rw [h2] at hok; simp at hok
      | false =>
        rw [h2] at hok; simp only [if_false, Bool.false_eq_true] at hok ⊢
        rcases List.mem_cons.mp hq with rfl | hm
        · exact mkdirChain_dirs_mono rs (fs.addDir q) q (isDir_addDir.mpr (Or.inl rfl))
        · exact ih (fs.addDir r) hok q hm

/-! ### Lemmas about `copyfile` and one `overlay` step -/

theorem copyfile_dirs (fs : FS) (p : FPath) (c : String) :
    (fs.copyfile p c).1.dirs = fs.dirs := by
  unfold FS.copyfile
  cases h1 : fs.isDir p with
  | true => simp [h1]
  | false =>
    cases h2 : fs.isDir p.dropLast with
    | true => simp [h1, h2]
    | false => simp [h1, h2]

theorem copyfile_files_other {fs : FS} {p q : FPath} {c : String} (h : q ≠ p) :
    lookupF (fs.copyfile p c).1.files q = lookupF fs.files q := by
  unfold FS.copyfile
  cases h1 : fs.isDir p with
  | true => simp [h1]
  | false =>
    cases h2 : fs.isDir p.dropLast with
    | true => simp [h1, h2, lookupF_cons_other h]
    | false => simp [h1, h2]

theorem copyfile_ok {fs : FS} {p : FPath} {c : String}
    (h : (fs.copyfile p c).2 = none) :
    lookupF (fs.copyfile p c).1.files p = some c ∧
      fs.isDir p = false ∧ fs.isDir p.dropLast = true := by
  unfold FS.copyfile at h ⊢
  cases h1 : fs.isDir p with
  | true => rw [h1] at h; simp at h
  | false =>
    cases h2 : fs.isDir p.dropLast with
    | true => simp [h1, h2, lookupF_cons_self]
    | false => rw [h1, h2] at h; simp at h

theorem copyfile_err_fs {fs : FS} {p : FPath} {c : String} {er : Err}
    (h : (fs.copyfile p c).2 = some er) : (fs.copyfile p c).1 = fs := by
  unfold FS.copyfile at h ⊢
  cases h1 : fs.isDir p with
  | true => simp [h1]
  | false =>
    cases h2 : fs.isDir p.dropLast with
    | true => rw [h1, h2] at h; simp at h
    | false => simp [h1, h2]

theorem copyfile_isSome_mono {fs : FS} {p q : FPath} {c : String}
    (h : (lookupF fs.files q).isSome = true) :
    (lookupF (fs.copyfile p c).1.files q).isSome = true := by
  by_cases hq : q = p
  · subst hq
    unfold FS.copyfile
    cases h1 : fs.isDir q with
    | true => simpa [h1] using h
    | false =>
      cases h2 : fs.isDir q.dropLast with
      | true => simp [h1, h2, lookupF_cons_self]
      | false => simpa [h1, h2] using h
  · rw [copyfile_files_other hq]; exact h

theorem step_file_exists {fs : FS} {p : FPath} {c : String} (h : fs.pathExists p = true) :
    stepEntry fs p (.file c) = ⟨(fs.copyfile p c).1, [p], (fs.copyfile p c).2⟩ := by
  unfold stepEntry
  rw [h]
  rfl

theorem step_file_new_err {fs : FS} {p : FPath} {c : String} {er : Err}
    (h : fs.pathExists p = false) (hm : (fs.mkdirP p.dropLast).2 = some er) :
    stepEntry fs p (.file c) = ⟨(fs.mkdirP p.dropLast).1, [], some er⟩ := by
  unfold stepEntry
  rw [h]
  rcases hmk : fs.mkdirP p.dropLast with ⟨fs1, e1⟩
  rw [hmk] at hm
  simp only at hm
  subst hm
  simp

theorem step_file_new_ok {fs : FS} {p : FPath} {c : String}
    (h : fs.pathExists p = false) (hm : (fs.mkdirP p.dropLast).2 = none) :
    stepEntry fs p (.file c) =
      ⟨((fs.mkdirP p.dropLast).1.copyfile p c).1, [],
        ((fs.mkdirP p.dropLast).1.copyfile p c).2⟩ := by
  unfold stepEntry
  rw [h]
  rcases hmk : fs.mkdirP p.dropLast with ⟨fs1, e1⟩
  rw [hmk] at hm
  simp only at hm
  subst hm
  simp

theorem isDir_congr_dirs {fs1 fs2 : FS} (h : fs1.dirs = fs2.dirs) (q : FPath) :
    fs1.isDir q = fs2.isDir q := by
  unfold FS.isDir
  rw [h]

theorem step_dir_already {fs : FS} {p : FPath} (h : fs.isDir p = true) :
    stepEntry fs p .dirE = ⟨fs, [], none⟩ := by
  unfold stepEntry
  rw [h]
  rfl

theorem step_dir_clash {fs : FS} {p : FPath} (h1 : fs.isDir p = false)
    (h2 : fs.pathExists p = true) : stepEntry fs p .dirE = ⟨fs, [], some .fileExists⟩ := by
  unfold stepEntry
  rw [h1, h2]
  rfl

theorem isDir_false_of_not_exists {fs : FS} {p : FPath} (h : fs.pathExists p = false) :
    fs.isDir p = false := by
  unfold FS.pathExists at h
  exact (Bool.or_eq_false_iff.mp h).2

theorem isFile_false_of_not_exists {fs : FS} {p : FPath} (h : fs.pathExists p = false) :
    fs.isFile p = false := by
  unfold FS.pathExists at h
  exact (Bool.or_eq_false_iff.mp h).1

theorem step_dir_new {fs : FS} {p : FPath} (h2 : fs.pathExists p = false)
    (h3 : fs.isDir p.dropLast = true) :
    stepEntry fs p .dirE = ⟨fs.addDir p, [], none⟩ := by
  unfold stepEntry
  rw [isDir_false_of_not_exists h2, h2, h3]
  rfl

theorem step_dir_orphan {fs : FS} {p : FPath} (h2 : fs.pathExists p = false)
    (h3 : fs.isDir p.dropLast = false) :
    stepEntry fs p .dirE = ⟨fs, [], some .fileNotFound⟩ := by
  unfold stepEntry
  rw [isDir_false_of_not_exists h2, h2, h3]
  rfl

theorem mkdirP_files (fs : FS) (q : FPath) : ((fs.mkdirP q).1).files = fs.files :=
  mkdirChain_files (prefList q) fs

theorem step_files_other {fs : FS} {p q : FPath} {e : FSEntry} (hq : q ≠ p) :
    lookupF (stepEntry fs p e).fs.files q = lookupF fs.files q := by
  cases e with
  | file c =>
    cases hex : fs.pathExists p with
    | true =>
      rw [step_file_exists hex]
      exact copyfile_files_other hq
    | false =>
      cases hmk : (fs.mkdirP p.dropLast).2 with
      | some er =>
        rw [step_file_new_err hex hmk]
        simp only
        rw [mkdirP_files]
      | none =>
        rw [step_file_new_ok hex hmk]
        simp only
        rw [copyfile_files_other hq, mkdirP_files]
  | dirE =>
    cases h1 : fs.isDir p with
    | true => rw [step_dir_already h1]
    | false =>
      cases h2 : fs.pathExists p with
      | true => rw [step_dir_clash h1 h2]
      | false =>
        cases h3 : fs.isDir p.dropLast with
        | true => rw [step_dir_new h2 h3]; rfl
        | false => rw [step_dir_orphan h2 h3]

theorem mkdirP_dirs_mono {fs : FS} {r q : FPath} (h : fs.isDir q = true) :
    ((fs.mkdirP r).1).isDir q = true :=
  mkdirChain_dirs_mono (prefList r) fs q h

theorem step_dirs_mono {fs : FS} {p q : FPath} {e : FSEntry} (h : fs.isDir q = true) :
    (stepEntry fs p e).fs.isDir q = true := by
  cases e with
  | file c =>
    cases hex : fs.pathExists p with
    | true =>
      rw [step_file_exists hex]
      rw [isDir_congr_dirs (copyfile_dirs fs p c) q]
      exact h
    | false =>
      cases hmk : (fs.mkdirP p.dropLast).2 with
      | some er =>
        rw [step_file_new_err hex hmk]
        exact mkdirP_dirs_mono h
      | none =>
        rw [step_file_new_ok hex hmk]
        simp only
        rw [isDir_congr_dirs (copyfile_dirs _ p c) q]
        exact mkdirP_dirs_mono h
  | dirE =>
    cases h1 : fs.isDir p with
    | true => rw [step_dir_already h1]; exact h
    | false =>
      cases h2 : fs.pathExists p with
      | true => rw [step_dir_clash h1 h2]; exact h
      | false =>
        cases h3 : fs.isDir p.dropLast with
        | true => rw [step_dir_new h2 h3]; exact isDir_addDir_mono h
        | false => rw [step_dir_orphan h2 h3]; exact h

theorem step_isSome_mono {fs : FS} {p q : FPath} {e : FSEntry}
    (h : (lookupF fs.files q).isSome = true) :
    (lookupF (stepEntry fs p e).fs.files q).isSome = true := by
  by_cases hq : q = p
  · subst hq
    cases e with
    | file c =>
      cases hex : fs.pathExists q with
      | true =>
        rw [step_file_exists hex]
        exact copyfile_isSome_mono h
      | false =>
        cases hmk : (fs.mkdirP q.dropLast).2 with
        | some er =>
          rw [step_file_new_err hex hmk]
          simp only
          rw [mkdirP_files]
          exact h
        | none =>
          rw [step_file_new_ok hex hmk]
          simp only
          refine copyfile_isSome_mono ?_
          rw [mkdirP_files]
          exact h
    | dirE =>
      cases h1 : fs.isDir q with
      | true => rw [step_dir_already h1]; exact h
      | false =>
        cases h2 : fs.pathExists q with
        | true => rw [step_dir_clash h1 h2]; exact h
        | false =>
          cases h3 : fs.isDir q.dropLast with
          | true => rw [step_dir_new h2 h3]; exact h
          | false => rw [step_dir_orphan h2 h3]; exact h
  · rw [step_files_other hq]; exact h

theorem step_dirs_new_file {fs : FS} {p q : FPath} {c : String}
    (h : (stepEntry fs p (.file c)).fs.isDir q = true) :
    fs.isDir q = true ∨ (isPre q p ∧ q ≠ p ∧ fs.isFile q = false) := by
  cases hex : fs.pathExists p with
  | true =>
    rw [step_file_exists hex] at h
    rw [isDir_congr_dirs (copyfile_dirs fs p c) q] at h
    exact Or.inl h
  | false =>
    cases hmk : (fs.mkdirP p.dropLast).2 with
    | some er =>
      rw [step_file_new_err hex hmk] at h
      simp only at h
      rcases mkdirChain_dirs_new (prefList p.dropLast) fs q h with h' | ⟨hm, hf⟩
      · exact Or.inl h'
      · obtain ⟨hpre, hne⟩ := mem_prefList_dropLast hm
        exact Or.inr ⟨hpre, hne, hf⟩
    | none =>
      rw [step_file_new_ok hex hmk] at h
      simp only at h
      rw [isDir_congr_dirs (copyfile_dirs _ p c) q] at h
      rcases mkdirChain_dirs_new (prefList p.dropLast) fs q h with h' | ⟨hm, hf⟩
      · exact Or.inl h'
      · obtain ⟨hpre, hne⟩ := mem_prefList_dropLast hm
        exact Or.inr ⟨hpre, hne, hf⟩

theorem step_dirs_new_dir {fs : FS} {p q : FPath}
    (h : (stepEntry fs p .dirE).fs.isDir q = true) :
    fs.isDir q = true ∨ q = p := by
  cases h1 : fs.isDir p with
  | true => rw [step_dir_already h1] at h; exact Or.inl h
  | false =>
    cases h2 : fs.pathExists p with
    | true => rw [step_dir_clash h1 h2] at h; exact Or.inl h
    | false =>
      cases h3 : fs.isDir p.dropLast with
      | true =>
        rw [step_dir_new h2 h3] at h
        rcases isDir_addDir.mp h with h' | h'
        · exact Or.inr h'
        · exact Or.inl h'
      | false => rw [step_dir_orphan h2 h3] at h; exact Or.inl h

theorem step_file_ok {fs : FS} {p : FPath} {c : String}
    (h : (stepEntry fs p (.file c)).err = none) :
    doneEntry (stepEntry fs p (.file c)).fs p (.file c) := by
  cases hex : fs.pathExists p with
  | true =>
    rw [step_file_exists hex] at h ⊢
    simp only at h
    obtain ⟨hl, hd, hpar⟩ := copyfile_ok h
    refine ⟨hl, ?_, ?_⟩
    · rw [isDir_congr_dirs (copyfile_dirs fs p c) p]; exact hd
    · rw [isDir_congr_dirs (copyfile_dirs fs p c) p.dropLast]; exact hpar
  | false =>
    cases hmk : (fs.mkdirP p.dropLast).2 with
    | some er =>
      rw [step_file_new_err hex hmk] at h
      simp at h
    | none =>
      rw [step_file_new_ok hex hmk] at h ⊢
      simp only at h ⊢
      obtain ⟨hl, hd, hpar⟩ := copyfile_ok h
      refine ⟨hl, ?_, ?_⟩
      · rw [isDir_congr_dirs (copyfile_dirs _ p c) p]; exact hd
      · rw [isDir_congr_dirs (copyfile_dirs _ p c) p.dropLast]; exact hpar

theorem step_dir_ok {fs : FS} {p : FPath}
    (h : (stepEntry fs p .dirE).err = none) :
    (stepEntry fs p .dirE).fs.isDir p = true := by
  cases h1 : fs.isDir p with
  | true => rw [step_dir_already h1]; exact h1
  | false =>
    cases h2 : fs.pathExists p with
    | true => rw [step_dir_clash h1 h2] at h; simp at h
    | false =>
      cases h3 : fs.isDir p.dropLast with
      | true =>
        rw [step_dir_new h2 h3]
        exact isDir_addDir.mpr (Or.inl rfl)
      | false => rw [step_dir_orphan h2 h3] at h; simp at h

theorem step_notices_file (fs : FS) (p : FPath) (c : String) :
    (stepEntry fs p (.file c)).notices = if fs.pathExists p then [p] else [] := by
  cases hex : fs.pathExists p with
  | true => rw [step_file_exists hex]; simp
  | false =>
    cases hmk : (fs.mkdirP p.dropLast).2 with
    | some er => rw [step_file_new_err hex hmk]; simp
    | none => rw [step_file_new_ok hex hmk]; simp

theorem step_notices_dir (fs : FS) (p : FPath) :
    (stepEntry fs p .dirE).notices = [] := by
  cases h1 : fs.isDir p with
  | true => rw [step_dir_already h1]
  | false =>
    cases h2 : fs.pathExists p with
    | true => rw [step_dir_clash h1 h2]
    | false =>
      cases h3 : fs.isDir p.dropLast with
      | true => rw [step_dir_new h2 h3]
      | false => rw [step_dir_orphan h2 h3]

/-! ### Lemmas about the full `overlay` walk -/

theorem step_dirs_new {fs : FS} {p q : FPath} {e : FSEntry}
    (h : (stepEntry fs p e).fs.isDir q = true) :
    fs.isDir q = true ∨ isPre q p := by
  cases e with
  | file c =>
    rcases step_dirs_new_file h with h' | ⟨hpre, _, _⟩
    · exact Or.inl h'
    · exact Or.inr hpre
  | dirE =>
    rcases step_dirs_new_dir h with h' | rfl
    · exact Or.inl h'
    · exact Or.inr (isPre_refl q)

theorem run_nil (fs : FS) : runEntries fs [] = ⟨fs, [], none⟩ := rfl

theorem run_cons_ok {fs : FS} {p : FPath} {e : FSEntry} {rest : List (FPath × FSEntry)}
    (h : (stepEntry fs p e).err = none) :
    runEntries fs ((p, e) :: rest) =
      ⟨(runEntries (stepEntry fs p e).fs rest).fs,
       (stepEntry fs p e).notices ++ (runEntries (stepEntry fs p e).fs rest).notices,
       (runEntries (stepEntry fs p e).fs rest).err⟩ := by
  rcases hs : stepEntry fs p e with ⟨fs1, ns1, e1⟩
  rw [hs] at h
  simp only at h
  subst h
  simp only [runEntries, hs]

theorem run_cons_err {fs : FS} {p : FPath} {e : FSEntry} {rest : List (FPath × FSEntry)}
    {er : Err} (h : (stepEntry fs p e).err = some er) :
    runEntries fs ((p, e) :: rest) = stepEntry fs p e := by
  rcases hs : stepEntry fs p e with ⟨fs1, ns1, e1⟩
  rw [hs] at h
  simp only at h
  subst h
  simp only [runEntries, hs]

theorem run_files_other {q : FPath} : ∀ (es : List (FPath × FSEntry)) (fs : FS),
    (∀ x ∈ es, x.1 ≠ q) →
    lookupF (runEntries fs es).fs.files q = lookupF fs.files q := by
  intro es
  induction es with
  | nil => intro fs _; rfl
  | cons x rest ih =>
    intro fs hx
    obtain ⟨p, e⟩ := x
    have hqp : q ≠ p := fun h => hx (p, e) (List.mem_cons_self _ _) h.symm
    cases he : (stepEntry fs p e).err with
    | some er =>
      rw [run_cons_err he]
      exact step_files_other hqp
    | none =>
      rw [run_cons_ok he]
      simp only
      rw [ih _ (fun y hy => hx y (List.mem_cons_of_mem _ hy)), step_files_other hqp]

theorem run_isSome_mono {q : FPath} : ∀ (es : List (FPath × FSEntry)) (fs : FS),
    (lookupF fs.files q).isSome = true →
    (lookupF (runEntries fs es).fs.files q).isSome = true := by
  intro es
  induction es with
  | nil => intro fs h; exact h
  | cons x rest ih =>
    intro fs h
    obtain ⟨p, e⟩ := x
    cases he : (stepEntry fs p e).err with
    | some er =>
      rw [run_cons_err he]
      exact step_isSome_mono h
    | none =>
      rw [run_cons_ok he]
      exact ih _ (step_isSome_mono h)

theorem run_dirs_mono {q : FPath} : ∀ (es : List (FPath × FSEntry)) (fs : FS),
    fs.isDir q = true → (runEntries fs es).fs.isDir q = true := by
  intro es
  induction es with
  | nil => intro fs h; exact h
  | cons x rest ih =>
    intro fs h
    obtain ⟨p, e⟩ := x
    cases he : (stepEntry fs p e).err with
    | some er =>
      rw [run_cons_err he]
      exact step_dirs_mono h
    | none =>
      rw [run_cons_ok he]
      exact ih _ (step_dirs_mono h)

theorem run_dirs_new {q : FPath} : ∀ (es : List (FPath × FSEntry)) (fs : FS),
    (runEntries fs es).fs.isDir q = true →
    fs.isDir q = true ∨ ∃ x ∈ es, isPre q x.1 := by
  intro es
  induction es with
  | nil => intro fs h; exact Or.inl h
  | cons x rest ih =>
    intro fs h
    obtain ⟨p, e⟩ := x
    cases he : (stepEntry fs p e).err with
    | some er =>
      rw [run_cons_err he] at h
      rcases step_dirs_new h with h' | h'
      · exact Or.inl h'
      · exact Or.inr ⟨(p, e), List.mem_cons_self _ _, h'⟩
    | none =>
      rw [run_cons_ok he] at h
      simp only at h
      rcases ih _ h with h' | ⟨y, hy, hpre⟩
      · rcases step_dirs_new h' with h'' | h''
        · exact Or.inl h''
        · exact Or.inr ⟨(p, e), List.mem_cons_self _ _, h''⟩
      · exact Or.inr ⟨y, List.mem_cons_of_mem _ hy, hpre⟩

theorem run_append_err {er : Err} : ∀ (es1 es2 : List (FPath × FSEntry)) (fs : FS),
    (runEntries fs es1).err = some er →
    runEntries fs (es1 ++ es2) = runEntries fs es1 := by
  intro es1
  induction es1 with
  | nil => intro es2 fs h; simp [run_nil] at h
  | cons x rest ih =>
    intro es2 fs h
    obtain ⟨p, e⟩ := x
    cases he : (stepEntry fs p e).err with
    | some er' =>
      rw [List.cons_append, run_cons_err he, run_cons_err he]
    | none =>
      rw [run_cons_ok he] at h
      simp only at h
      rw [List.cons_append, run_cons_ok he, run_cons_ok he, ih es2 _ h]

theorem run_append_ok : ∀ (es1 es2 : List (FPath × FSEntry)) (fs : FS),
    (runEntries fs es1).err = none →
    runEntries fs (es1 ++ es2) =
      ⟨(runEntries (runEntries fs es1).fs es2).fs,
       (runEntries fs es1).notices ++ (runEntries (runEntries fs es1).fs es2).notices,
       (runEntries (runEntries fs es1).fs es2).err⟩ := by
  intro es1
  induction es1 with
  | nil => intro es2 fs _; simp [run_nil]
  | cons x rest ih =>
    intro es2 fs h
    obtain ⟨p, e⟩ := x
    cases he : (stepEntry fs p e).err with
    | some er' =>
      rw [run_cons_err he] at h
      rw [he] at h
      cases h
    | none =>
      rw [run_cons_ok he] at h
      simp only at h
      rw [List.cons_append, run_cons_ok he, run_cons_ok he, ih es2 _ h]
      simp [List.append_assoc]


/-! ### Lemmas about source trees and `rglob` -/

theorem children_mem {x : FPath × FSEntry} : ∀ (t : Tree), x ∈ t.children →
    ∃ n e, x = ([n], kindOf e) ∧ (n, e) ∈ t.entries
  | .nil => fun h => by cases h
  | .node m e rest => fun h => by
    rcases List.mem_cons.mp h with rfl | h'
    · exact ⟨m, e, rfl, List.mem_cons_self _ _⟩
    · obtain ⟨n, e', hx, hm⟩ := children_mem rest h'
      exact ⟨n, e', hx, List.mem_cons_of_mem _ hm⟩

theorem children_mem_of {n : String} {e : TEntry} : ∀ (t : Tree), (n, e) ∈ t.entries →
    ([n], kindOf e) ∈ t.children
  | .nil => fun h => by cases h
  | .node m e' rest => fun h => by
    rcases List.mem_cons.mp h with he | h'
    · rw [show Tree.children (.node m e' rest) = ([m], kindOf e') :: rest.children from rfl]
      cases he
      exact List.mem_cons_self _ _
    · exact List.mem_cons_of_mem _ (children_mem_of rest h')

theorem recs_mem {x : FPath × FSEntry} : ∀ (t : Tree), x ∈ t.recs →
    ∃ n sub p', x.1 = n :: p' ∧ (n, .dir sub) ∈ t.entries ∧ (p', x.2) ∈ sub.rglob
  | .nil => fun h => by cases h
  | .node m (.file c) rest => fun h => by
    obtain ⟨n, sub, p', h1, h2, h3⟩ := recs_mem rest h
    exact ⟨n, sub, p', h1, List.mem_cons_of_mem _ h2, h3⟩
  | .node m (.dir sub) rest => fun h => by
    rw [show Tree.recs (.node m (.dir sub) rest) =
      ((sub.children ++ sub.recs).map (fun pe => (m :: pe.1, pe.2))) ++ rest.recs
      from rfl] at h
    rcases List.mem_append.mp h with h' | h'
    · obtain ⟨pe, hpe, hx⟩ := List.mem_map.mp h'
      refine ⟨m, sub, pe.1, ?_, List.mem_cons_self _ _, ?_⟩
      · rw [← hx]
      · rw [show (pe.1, x.2) = pe from by rw [← hx]]
        exact hpe
    · obtain ⟨n, sub', p', h1, h2, h3⟩ := recs_mem rest h'
      exact ⟨n, sub', p', h1, List.mem_cons_of_mem _ h2, h3⟩

theorem recs_mem_of {n : String} {sub : Tree} {p' : FPath} {k : FSEntry} : ∀ (t : Tree),
    (n, .dir sub) ∈ t.entries → (p', k) ∈ sub.rglob → (n :: p', k) ∈ t.recs
  | .nil => fun h _ => by cases h
  | .node m e rest => fun h hp => by
    rcases List.mem_cons.mp h with he | h'
    · cases he
      rw [show Tree.recs (.node n (.dir sub) rest) =
        ((sub.children ++ sub.recs).map (fun pe => (n :: pe.1, pe.2))) ++ rest.recs
        from rfl]
      refine List.mem_append.mpr (Or.inl ?_)
      exact List.mem_map.mpr ⟨(p', k), hp, rfl⟩
    · have hr := recs_mem_of rest h' hp
      cases e with
      | file c => exact hr
      | dir sub' =>
        rw [show Tree.recs (.node m (.dir sub') rest) =
          ((sub'.children ++ sub'.recs).map (fun pe => (m :: pe.1, pe.2))) ++ rest.recs
          from rfl]
        exact List.mem_append.mpr (Or.inr hr)

theorem rglob_mem_child {t : Tree} {n : String} {e : TEntry} (h : (n, e) ∈ t.entries) :
    ([n], kindOf e) ∈ t.rglob :=
  List.mem_append.mpr (Or.inl (children_mem_of t h))

theorem rglob_mem_sub {t : Tree} {n : String} {sub : Tree} {p' : FPath} {k : FSEntry}
    (h : (n, .dir sub) ∈ t.entries) (hp : (p', k) ∈ sub.rglob) :
    (n :: p', k) ∈ t.rglob :=
  List.mem_append.mpr (Or.inr (recs_mem_of t h hp))

theorem rglob_ne_nil {t : Tree} {x : FPath × FSEntry} (h : x ∈ t.rglob) : x.1 ≠ [] := by
  rcases List.mem_append.mp h with h' | h'
  · obtain ⟨n, e, hx, _⟩ := children_mem t h'
    rw [hx]
    simp
  · obtain ⟨n, sub, p', h1, _, _⟩ := recs_mem t h'
    rw [h1]
    simp

theorem find_mem {n : String} {e : TEntry} : ∀ (t : Tree), t.find n = some e →
    (n, e) ∈ t.entries
  | .nil => fun h => by cases h
  | .node m e' rest => fun h => by
    rw [show Tree.find (.node m e' rest) n = if m = n then some e' else rest.find n from rfl] at h
    by_cases hm : m = n
    · rw [if_pos hm] at h
      cases h
      subst hm
      exact List.mem_cons_self _ _
    · rw [if_neg hm] at h
      exact List.mem_cons_of_mem _ (find_mem rest h)

theorem names_of_mem {n : String} {e : TEntry} : ∀ (t : Tree), (n, e) ∈ t.entries →
    n ∈ t.names
  | .nil => fun h => by cases h
  | .node m e' rest => fun h => by
    rcases List.mem_cons.mp h with he | h'
    · cases he
      exact List.mem_cons_self _ _
    · exact List.mem_cons_of_mem _ (names_of_mem rest h')

theorem WF_node {n : String} {e : TEntry} {rest : Tree} (h : (Tree.node n e rest).WF = true) :
    n ∉ rest.names ∧ TEntry.eWF e = true ∧ rest.WF = true := by
  rw [show (Tree.node n e rest).WF =
    (!(decide (n ∈ rest.names)) && TEntry.eWF e && rest.WF) from rfl] at h
  simp only [Bool.and_eq_true, Bool.not_eq_true', decide_eq_false_iff_not] at h
  exact ⟨h.1.1, h.1.2, h.2⟩

theorem mem_find {n : String} {e : TEntry} : ∀ (t : Tree), t.WF = true →
    (n, e) ∈ t.entries → t.find n = some e
  | .nil => fun _ h => by cases h
  | .node m e' rest => fun hw h => by
    obtain ⟨hn, _, hr⟩ := WF_node hw
    rw [show Tree.find (.node m e' rest) n = if m = n then some e' else rest.find n from rfl]
    rcases List.mem_cons.mp h with he | h'
    · cases he
      rw [if_pos rfl]
    · have hne : m ≠ n := fun hmn => hn (hmn ▸ names_of_mem rest h')
      rw [if_neg hne]
      exact mem_find rest hr h'

theorem WF_sub {n : String} {sub : Tree} : ∀ (t : Tree), t.WF = true →
    (n, .dir sub) ∈ t.entries → sub.WF = true
  | .nil => fun _ h => by cases h
  | .node m e' rest => fun hw h => by
    obtain ⟨_, he, hr⟩ := WF_node hw
    rcases List.mem_cons.mp h with heq | h'
    · cases heq
      exact he
    · exact WF_sub rest hr h'

theorem WF_names_nodup : ∀ (t : Tree), t.WF = true → t.names.Nodup
  | .nil => fun _ => List.nodup_nil
  | .node m e rest => fun hw => by
    obtain ⟨hn, _, hr⟩ := WF_node hw
    exact List.nodup_cons.mpr ⟨hn, WF_names_nodup rest hr⟩

theorem lookupPath_single (t : Tree) (n : String) : t.lookupPath [n] = t.find n := rfl

theorem lookupPath_cons (t : Tree) (n m : String) (r : FPath) :
    t.lookupPath (n :: m :: r) =
      (match t.find n with
       | some (.dir sub) => sub.lookupPath (m :: r)
       | _ => none) := rfl

theorem lookupPath_mem : ∀ (p : FPath) (t : Tree) (e : TEntry),
    t.lookupPath p = some e → (p, kindOf e) ∈ t.rglob := by
  intro p
  induction p with
  | nil => intro t e h; cases h
  | cons n tail ih =>
    intro t e h
    cases tail with
    | nil =>
      rw [lookupPath_single] at h
      exact rglob_mem_child (find_mem t h)
    | cons m r =>
      rw [lookupPath_cons] at h
      cases hf : t.find n with
      | none => rw [hf] at h; cases h
      | some ent =>
        cases ent with
        | file c => rw [hf] at h; cases h
        | dir sub =>
          rw [hf] at h
          simp only at h
          exact rglob_mem_sub (find_mem t hf) (ih sub e h)

theorem mem_lookupPath : ∀ (p : FPath) (t : Tree) (k : FSEntry), t.WF = true →
    (p, k) ∈ t.rglob → ∃ e, t.lookupPath p = some e ∧ kindOf e = k := by
  intro p
  induction p with
  | nil =>
    intro t k _ h
    exact absurd rfl (rglob_ne_nil h)
  | cons n tail ih =>
    intro t k hw h
    rcases List.mem_append.mp h with h' | h'
    · obtain ⟨n', e, hx, hm⟩ := children_mem t h'
      have h1 : n :: tail = [n'] := congrArg Prod.fst hx
      have h2 : k = kindOf e := congrArg Prod.snd hx
      have hn : n = n' := (List.cons.injEq .. ▸ h1 : n = n' ∧ _).1
      have ht : tail = [] := (List.cons.injEq .. ▸ h1 : _ ∧ tail = []).2
      subst hn
      subst ht
      exact ⟨e, by rw [lookupPath_single]; exact mem_find t hw hm, h2.symm⟩
    · obtain ⟨n', sub, p', h1, h2, h3⟩ := recs_mem t h'
      have h1' : n :: tail = n' :: p' := h1
      have hn : n = n' := (List.cons.injEq .. ▸ h1' : n = n' ∧ _).1
      have ht : tail = p' := (List.cons.injEq .. ▸ h1' : _ ∧ tail = p').2
      subst hn
      subst ht
      have h3' : (tail, k) ∈ sub.rglob := h3
      have htne : tail ≠ [] := rglob_ne_nil h3'
      cases tail with
      | nil => exact absurd rfl htne
      | cons m r =>
        obtain ⟨e, he, hk⟩ := ih sub k (WF_sub t hw h2) h3'
        refine ⟨e, ?_, hk⟩
        rw [lookupPath_cons, mem_find t hw h2]
        exact he

theorem pathsOf_append (a b : List (FPath × FSEntry)) :
    pathsOf (a ++ b) = pathsOf a ++ pathsOf b := List.map_append _ a b

theorem pathsOf_mem {es : List (FPath × FSEntry)} {p : FPath} :
    p ∈ pathsOf es ↔ ∃ k, (p, k) ∈ es := by
  unfold pathsOf
  constructor
  · intro h
    obtain ⟨x, hx, hp⟩ := List.mem_map.mp h
    exact ⟨x.2, by rw [show (p, x.2) = x from by rw [← hp]]; exact hx⟩
  · intro ⟨k, hk⟩
    exact List.mem_map.mpr ⟨(p, k), hk, rfl⟩

theorem pathsOf_cons_map (m : String) (l : List (FPath × FSEntry)) :
    pathsOf (l.map (fun pe => (m :: pe.1, pe.2))) = (pathsOf l).map (fun p => m :: p) := by
  unfold pathsOf
  rw [List.map_map, List.map_map]
  rfl

theorem children_paths : ∀ (t : Tree), pathsOf t.children = t.names.map (fun n => [n])
  | .nil => rfl
  | .node m e rest => by
    rw [show Tree.children (.node m e rest) = ([m], kindOf e) :: rest.children from rfl,
      show Tree.names (.node m e rest) = m :: rest.names from rfl]
    have ih := children_paths rest
    simp only [pathsOf, List.map_cons] at ih ⊢
    rw [ih]

theorem recs_paths_head {t : Tree} {p : FPath} (h : p ∈ pathsOf t.recs) :
    ∃ n p', p = n :: p' ∧ n ∈ t.names := by
  obtain ⟨k, hk⟩ := pathsOf_mem.mp h
  obtain ⟨n, sub, p', h1, h2, _⟩ := recs_mem t hk
  exact ⟨n, p', h1, names_of_mem t h2⟩

theorem recs_paths_len {t : Tree} {p : FPath} (h : p ∈ pathsOf t.recs) :
    2 ≤ p.length := by
  obtain ⟨k, hk⟩ := pathsOf_mem.mp h
  obtain ⟨n, sub, p', h1, _, h3⟩ := recs_mem t hk
  have hp' : p' ≠ [] := rglob_ne_nil h3
  have h1' : p = n :: p' := h1
  rw [h1']
  cases p' with
  | nil => exact absurd rfl hp'
  | cons a b => simp

theorem cons_inj_path (m : String) : Function.Injective (fun p : FPath => m :: p) := by
  intro a b hab
  simpa using hab

theorem glob_nodup_of {t : Tree} (hrec : (pathsOf t.recs).Nodup) (hw : t.WF = true) :
    (pathsOf t.rglob).Nodup := by
  rw [show t.rglob = t.children ++ t.recs from rfl, pathsOf_append]
  refine List.nodup_append.mpr ⟨?_, hrec, ?_⟩
  · rw [children_paths]
    exact (WF_names_nodup t hw).map (by intro a b hab; simpa using hab)
  · intro a ha hb
    rw [children_paths] at ha
    obtain ⟨n, _, hn⟩ := List.mem_map.mp ha
    have h2 := recs_paths_len hb
    rw [← hn] at h2
    simp at h2

theorem recs_nodup : ∀ t : Tree, t.WF = true → (pathsOf t.recs).Nodup
  | .nil => fun _ => by simp [Tree.recs, pathsOf]
  | .node m (.file c) rest => fun hw => by
    obtain ⟨_, _, hr⟩ := WF_node hw
    exact recs_nodup rest hr
  | .node m (.dir sub) rest => fun hw => by
    obtain ⟨hn, he, hr⟩ := WF_node hw
    rw [show TEntry.eWF (.dir sub) = sub.WF from rfl] at he
    rw [show Tree.recs (.node m (.dir sub) rest) =
      ((sub.children ++ sub.recs).map (fun pe => (m :: pe.1, pe.2))) ++ rest.recs
      from rfl, pathsOf_append,
      show sub.children ++ sub.recs = sub.rglob from rfl, pathsOf_cons_map]
    refine List.nodup_append.mpr ⟨?_, recs_nodup rest hr, ?_⟩
    · exact (glob_nodup_of (recs_nodup sub he) he).map (cons_inj_path m)
    · intro a ha hb
      obtain ⟨p, _, hp⟩ := List.mem_map.mp ha
      obtain ⟨n2, p2, ha2, hn2⟩ := recs_paths_head hb
      rw [← hp] at ha2
      have : m = n2 := (List.cons.injEq .. ▸ ha2 : m = n2 ∧ _).1
      exact hn (this ▸ hn2)

theorem rglob_nodup {t : Tree} (hw : t.WF = true) : (pathsOf t.rglob).Nodup :=
  glob_nodup_of (recs_nodup t hw) hw

/-! ### Lemmas about `copytree` -/

theorem writeAll_files_other {q : FPath} : ∀ (es : List (FPath × FSEntry)) (fs : FS),
    (∀ x ∈ es, x.1 ≠ q) → lookupF (writeAll es fs).files q = lookupF fs.files q := by
  intro es
  induction es with
  | nil => intro fs _; rfl
  | cons x rest ih =>
    intro fs hx
    obtain ⟨p, e⟩ := x
    have hpq : p ≠ q := hx (p, e) (List.mem_cons_self _ _)
    cases e with
    | file c =>
      rw [show writeAll ((p, .file c) :: rest) fs = writeAll rest (fs.writeFile p c) from rfl]
      rw [ih _ (fun y hy => hx y (List.mem_cons_of_mem _ hy))]
      exact lookupF_cons_other (fun h => hpq h.symm)
    | dirE =>
      rw [show writeAll ((p, .dirE) :: rest) fs = writeAll rest (fs.addDir p) from rfl]
      exact ih _ (fun y hy => hx y (List.mem_cons_of_mem _ hy))

theorem writeAll_file_mem {q : FPath} {c : String} : ∀ (es : List (FPath × FSEntry)) (fs : FS),
    (pathsOf es).Nodup → (q, .file c) ∈ es →
    lookupF (writeAll es fs).files q = some c := by
  intro es
  induction es with
  | nil => intro fs _ h; cases h
  | cons x rest ih =>
    intro fs hnd hm
    have hnd' : (pathsOf rest).Nodup := (List.nodup_cons.mp hnd).2
    have hhead : x.1 ∉ pathsOf rest := (List.nodup_cons.mp hnd).1
    rcases List.mem_cons.mp hm with he | hm'
    · subst he
      rw [show writeAll ((q, .file c) :: rest) fs = writeAll rest (fs.writeFile q c) from rfl]
      rw [writeAll_files_other rest _ (fun y hy hy1 => hhead (by
        rw [show (q, FSEntry.file c).1 = q from rfl, ← hy1]
        exact pathsOf_mem.mpr ⟨y.2, by rw [show (y.1, y.2) = y from rfl]; exact hy⟩))]
      simp [FS.writeFile, lookupF_cons_self]
    · have hq : x.1 ≠ q := by
        intro h
        exact hhead (h ▸ pathsOf_mem.mpr ⟨.file c, hm'⟩)
      obtain ⟨p, e⟩ := x
      cases e with
      | file c' =>
        rw [show writeAll ((p, .file c') :: rest) fs = writeAll rest (fs.writeFile p c') from rfl]
        exact ih _ hnd' hm'
      | dirE =>
        rw [show writeAll ((p, .dirE) :: rest) fs = writeAll rest (fs.addDir p) from rfl]
        exact ih _ hnd' hm'

theorem writeAll_isDir_mono {q : FPath} : ∀ (es : List (FPath × FSEntry)) (fs : FS),
    fs.isDir q = true → (writeAll es fs).isDir q = true := by
  intro es
  induction es with
  | nil => intro fs h; exact h
  | cons x rest ih =>
    intro fs h
    obtain ⟨p, e⟩ := x
    cases e with
    | file c =>
      rw [show writeAll ((p, .file c) :: rest) fs = writeAll rest (fs.writeFile p c) from rfl]
      exact ih _ h
    | dirE =>
      rw [show writeAll ((p, .dirE) :: rest) fs = writeAll rest (fs.addDir p) from rfl]
      exact ih _ (isDir_addDir_mono h)

theorem writeAll_isDir_of_mem {q : FPath} : ∀ (es : List (FPath × FSEntry)) (fs : FS),
    (q, .dirE) ∈ es → (writeAll es fs).isDir q = true := by
  intro es
  induction es with
  | nil => intro fs h; cases h
  | cons x rest ih =>
    intro fs hm
    rcases List.mem_cons.mp hm with he | hm'
    · subst he
      rw [show writeAll ((q, .dirE) :: rest) fs = writeAll rest (fs.addDir q) from rfl]
      exact writeAll_isDir_mono rest _ (isDir_addDir.mpr (Or.inl rfl))
    · obtain ⟨p, e⟩ := x
      cases e with
      | file c =>
        rw [show writeAll ((p, .file c) :: rest) fs = writeAll rest (fs.writeFile p c) from rfl]
        exact ih _ hm'
      | dirE =>
        rw [show writeAll ((p, .dirE) :: rest) fs = writeAll rest (fs.addDir p) from rfl]
        exact ih _ hm'

theorem writeAll_files_new {q : FPath} : ∀ (es : List (FPath × FSEntry)) (fs : FS),
    (lookupF (writeAll es fs).files q).isSome = true →
    (lookupF fs.files q).isSome = true ∨ ∃ c, (q, .file c) ∈ es := by
  intro es
  induction es with
  | nil => intro fs h; exact Or.inl h
  | cons x rest ih =>
    intro fs h
    obtain ⟨p, e⟩ := x
    cases e with
    | file c =>
      rw [show writeAll ((p, .file c) :: rest) fs = writeAll rest (fs.writeFile p c) from rfl] at h
      rcases ih _ h with h' | ⟨c', hc'⟩
      · by_cases hq : q = p
        · subst hq
          exact Or.inr ⟨c, List.mem_cons_self _ _⟩
        · rw [show (fs.writeFile p c).files = (p, c) :: fs.files from rfl,
            lookupF_cons_other hq] at h'
          exact Or.inl h'
      · exact Or.inr ⟨c', List.mem_cons_of_mem _ hc'⟩
    | dirE =>
      rw [show writeAll ((p, .dirE) :: rest) fs = writeAll rest (fs.addDir p) from rfl] at h
      rcases ih _ h with h' | ⟨c', hc'⟩
      · exact Or.inl h'
      · exact Or.inr ⟨c', List.mem_cons_of_mem _ hc'⟩

theorem writeAll_isSome_mono {q : FPath} : ∀ (es : List (FPath × FSEntry)) (fs : FS),
    (lookupF fs.files q).isSome = true →
    (lookupF (writeAll es fs).files q).isSome = true := by
  intro es
  induction es with
  | nil => intro fs h; exact h
  | cons x rest ih =>
    intro fs h
    obtain ⟨p, e⟩ := x
    cases e with
    | file c =>
      rw [show writeAll ((p, .file c) :: rest) fs = writeAll rest (fs.writeFile p c) from rfl]
      refine ih _ ?_
      by_cases hq : q = p
      · subst hq
        simp [FS.writeFile, lookupF_cons_self]
      · rw [show (fs.writeFile p c).files = (p, c) :: fs.files from rfl, lookupF_cons_other hq]
        exact h
    | dirE =>
      rw [show writeAll ((p, .dirE) :: rest) fs = writeAll rest (fs.addDir p) from rfl]
      exact ih _ h

theorem destEntries_mem {dst : FPath} {t : Tree} {x : FPath × FSEntry} :
    x ∈ destEntries dst t ↔ ∃ p k, x = (dst ++ p, k) ∧ (p, k) ∈ t.rglob := by
  unfold destEntries
  constructor
  · intro h
    obtain ⟨pe, hpe, hx⟩ := List.mem_map.mp h
    exact ⟨pe.1, pe.2, hx.symm, by rw [show (pe.1, pe.2) = pe from rfl]; exact hpe⟩
  · intro ⟨p, k, hx, hm⟩
    exact List.mem_map.mpr ⟨(p, k), hm, hx.symm⟩

theorem destEntries_paths (dst : FPath) (t : Tree) :
    pathsOf (destEntries dst t) = (pathsOf t.rglob).map (fun p => dst ++ p) := by
  unfold destEntries pathsOf
  rw [List.map_map, List.map_map]
  rfl

theorem destEntries_nodup {dst : FPath} {t : Tree} (hw : t.WF = true) :
    (pathsOf (destEntries dst t)).Nodup := by
  rw [destEntries_paths]
  exact (rglob_nodup hw).map (fun a b hab => List.append_cancel_left hab)

theorem destEntries_file_of_lookup {dst : FPath} {t : Tree} {p : FPath} {c : String}
    (h : t.lookupPath p = some (.file c)) :
    (dst ++ p, FSEntry.file c) ∈ destEntries dst t :=
  destEntries_mem.mpr ⟨p, .file c, rfl, lookupPath_mem p t _ h⟩

theorem destEntries_dir_of_lookup {dst : FPath} {t : Tree} {p : FPath} {sub : Tree}
    (h : t.lookupPath p = some (.dir sub)) :
    (dst ++ p, FSEntry.dirE) ∈ destEntries dst t :=
  destEntries_mem.mpr ⟨p, .dirE, rfl, lookupPath_mem p t _ h⟩

theorem copytree_exists_err {t : Tree} {dst : FPath} {fs : FS}
    (h : fs.pathExists dst = true) : copytree t dst fs = .error .fileExists := by
  unfold copytree
  rw [h]
  rfl

theorem copytree_ok_shape {t : Tree} {dst : FPath} {fs : FS}
    (h : fs.pathExists dst = false) (hm : (fs.mkdirP dst).2 = none) :
    copytree t dst fs = .ok (copyAll t dst (fs.mkdirP dst).1) := by
  unfold copytree
  rw [h]
  rcases hmk : fs.mkdirP dst with ⟨fs1, e1⟩
  rw [hmk] at hm
  simp only at hm
  subst hm
  simp

theorem copytree_err_shape {t : Tree} {dst : FPath} {fs : FS} {er : Err}
    (h : fs.pathExists dst = false) (hm : (fs.mkdirP dst).2 = some er) :
    copytree t dst fs = .error er := by
  unfold copytree
  rw [h]
  rcases hmk : fs.mkdirP dst with ⟨fs1, e1⟩
  rw [hmk] at hm
  simp only at hm
  subst hm
  simp

theorem copyAll_file {t : Tree} {dst : FPath} {fs : FS} {p : FPath} {c : String}
    (hw : t.WF = true) (h : t.lookupPath p = some (.file c)) :
    lookupF (copyAll t dst fs).files (dst ++ p) = some c :=
  writeAll_file_mem _ fs (destEntries_nodup hw) (destEntries_file_of_lookup h)

theorem copyAll_dir {t : Tree} {dst : FPath} {fs : FS} {p : FPath} {sub : Tree}
    (h : t.lookupPath p = some (.dir sub)) :
    (copyAll t dst fs).isDir (dst ++ p) = true :=
  writeAll_isDir_of_mem _ fs (destEntries_dir_of_lookup h)

theorem copyAll_other {t : Tree} {dst : FPath} {fs : FS} {p : FPath}
    (hw : t.WF = true) (h : t.lookupPath p = none) :
    lookupF (copyAll t dst fs).files (dst ++ p) = lookupF fs.files (dst ++ p) := by
  refine writeAll_files_other _ fs ?_
  intro x hx h1
  obtain ⟨p', k, hx', hm⟩ := destEntries_mem.mp hx
  rw [hx'] at h1
  have : p' = p := List.append_cancel_left (by exact h1)
  subst this
  obtain ⟨e, he, _⟩ := mem_lookupPath p' t k hw hm
  rw [he] at h
  cases h

theorem copyAll_files_new {t : Tree} {dst : FPath} {fs : FS} {q : FPath}
    (h : (lookupF (copyAll t dst fs).files q).isSome = true) :
    (lookupF fs.files q).isSome = true ∨
      ∃ p c, q = dst ++ p ∧ (p, FSEntry.file c) ∈ t.rglob := by
  rcases writeAll_files_new _ fs h with h' | ⟨c, hc⟩
  · exact Or.inl h'
  · obtain ⟨p', k, hx, hm⟩ := destEntries_mem.mp hc
    have h1 : q = dst ++ p' := congrArg Prod.fst hx
    have h2 : FSEntry.file c = k := congrArg Prod.snd hx
    exact Or.inr ⟨p', c, h1, h2 ▸ hm⟩

/-! ### Claim theorems: composition structure -/

/-- C6: For the mapping sequence `[replace_tree(A→ns/), overlay(B→ns/sub/),
overlay(C→ns/sub/)]` where B and C both contain `x.txt` with different
content, the final content of `ns/sub/x.txt` is C's content (last writer
wins), and a collision notice is emitted exactly for the overwrites of
already-existing destination files: none when B writes `x.txt` over nothing,
one when C writes over B's copy. -/
theorem claim_C6_last_writer_wins :
    copytree exA ["ns"] emptyFS = .ok exFsA ∧
    (overlay exB ["ns", "sub"] exFsA).err = none ∧
    (overlay exB ["ns", "sub"] exFsA).notices = [] ∧
    (overlay exC ["ns", "sub"] (overlay exB ["ns", "sub"] exFsA).fs).err = none ∧
    (overlay exC ["ns", "sub"] (overlay exB ["ns", "sub"] exFsA).fs).notices =
      [["ns", "sub", "x.txt"]] ∧
    lookupF (overlay exC ["ns", "sub"] (overlay exB ["ns", "sub"] exFsA).fs).fs.files
      ["ns", "sub", "x.txt"] = some "c" :=
  ⟨rfl, rfl, rfl, rfl, rfl, rfl⟩

/-- C10: If the locally checked-in primary source directory does not exist,
the degraded composition returns without raising, copies nothing and skips
the augmentation step entirely, and `main` hands the empty merged tree on to
documentation generation. -/
theorem claim_C10_missing_primary :
    (∀ (bazel : BazelOutcome) (gen_ops : Bool) (fs : FS),
      build_traditional_tensorflow_java_docs none bazel gen_ops fs = .ok fs) ∧
    (∀ (er : Err) (bazel : BazelOutcome) (gen_ops : Bool),
      main (.error er) none bazel gen_ops = .ok emptyFS) :=
  ⟨fun _ _ _ => rfl, fun _ _ _ => rfl⟩

/-- C8: A configured subtree mapping whose source subtree does not exist on
disk is skipped without error, and composition continues with the remaining
mappings. -/
theorem claim_C8_absent_skipped (r : RepoLayout) (i : MapIdx) (rest : List MapIdx)
    (s : St) (h : mapSrc r i = none) :
    applyMappings r (i :: rest) s = applyMappings r rest s := by
  have hap : applyMapping r i s = .ok s := by
    unfold applyMapping
    rw [h]
  simp only [applyMappings, hap]

theorem claim_C8_witness :
    mapSrc exRepo1 .gen = none ∧
    applyMappings exRepo1 [.gen, .nd] ⟨emptyFS, []⟩ =
      applyMappings exRepo1 [.nd] ⟨emptyFS, []⟩ :=
  ⟨rfl, claim_C8_absent_skipped exRepo1 .gen [.nd] ⟨emptyFS, []⟩ rfl⟩

/-- C5 fails as stated: `replace_tree` (`shutil.copytree`) into a
non-existing destination path does NOT always succeed — when an ancestor of
the destination exists as a regular file, `os.makedirs` raises even though
the destination itself does not exist. -/
theorem claim_C5_counterexample :
    exFsFileA.pathExists ["a", "b"] = false ∧
    copytree exB ["a", "b"] exFsFileA = .error .notADirectory :=
  ⟨rfl, rfl⟩

/-- C5 (amended): `replace_tree` into an existing destination path always
fails with the collision error `FileExistsError`; into a non-existing
destination path whose ancestor chain can be created (no ancestor is an
existing regular file) it always succeeds, and the destination then carries a
structural, byte-for-byte copy of the source tree, leaving every other file
unchanged. -/
theorem claim_C5_amended (t : Tree) (dst : FPath) (fs : FS)
    (hw : t.WF = true) (hne : fs.pathExists dst = false)
    (hmk : (fs.mkdirP dst).2 = none) :
    (∀ fs2 : FS, fs2.pathExists dst = true → copytree t dst fs2 = .error .fileExists) ∧
    copytree t dst fs = .ok (copyAll t dst (fs.mkdirP dst).1) ∧
    (∀ p c, t.lookupPath p = some (.file c) →
      lookupF (copyAll t dst (fs.mkdirP dst).1).files (dst ++ p) = some c) ∧
    (∀ p sub, t.lookupPath p = some (.dir sub) →
      (copyAll t dst (fs.mkdirP dst).1).isDir (dst ++ p) = true) ∧
    (∀ p, t.lookupPath p = none →
      lookupF (copyAll t dst (fs.mkdirP dst).1).files (dst ++ p) =
        lookupF fs.files (dst ++ p)) := by
  refine ⟨fun fs2 h2 => copytree_exists_err h2, copytree_ok_shape hne hmk,
    fun p c hp => copyAll_file hw hp, fun p sub hp => copyAll_dir hp, fun p hp => ?_⟩
  rw [copyAll_other hw hp, mkdirP_files]

theorem claim_C5_amended_witness :
    exB.WF = true ∧ emptyFS.pathExists ["d"] = false ∧ (emptyFS.mkdirP ["d"]).2 = none ∧
    copytree exB ["d"] emptyFS = .ok (copyAll exB ["d"] (emptyFS.mkdirP ["d"]).1) :=
  ⟨rfl, rfl, rfl, (claim_C5_amended exB ["d"] emptyFS rfl rfl rfl).2.1⟩

/-- C1 fails as stated: in the composition sequence the native-binding
protocol definitions are placed with `shutil.copytree`, not `overlay`; when
the core-API layer already created the destination subtree
(`java/org/tensorflow/proto`), that step raises `FileExistsError` instead of
overlaying — the step fails merely because the destination subtree exists. -/
theorem claim_C1_counterexample :
    build_comprehensive_java_docs (.ok exRepo1) emptyFS = .error .fileExists := rfl

/-- C1 (amended): after the first mapping only the machine-generated-code
contribution is applied with overlay semantics (an existing destination file
is overwritten with a notice and the step does not fail merely because the
destination subtree exists); the native-binding protocol definitions,
exception types, C-API bindings, framework extensions and array-library
sources are applied with replace-tree semantics and abort the composition
with `FileExistsError` whenever their destination path already exists when
their step runs. -/
theorem claim_C1_amended :
    (∀ (r : RepoLayout) (i : MapIdx) (t : Tree) (rest : List MapIdx) (s : St),
      i ≠ .core → i ≠ .gen → mapSrc r i = some t →
      s.fs.pathExists (mapDst i) = true →
      applyMappings r (i :: rest) s = .error .fileExists) ∧
    (∀ (r : RepoLayout) (t : Tree) (s : St),
      mapSrc r .gen = some t → (overlay t (mapDst .gen) s.fs).err = none →
      applyMapping r .gen s =
        .ok ⟨(overlay t (mapDst .gen) s.fs).fs,
             s.notices ++ (overlay t (mapDst .gen) s.fs).notices⟩) := by
  constructor
  · intro r i t rest s hc hg hsrc hex
    have hmode : isOverlayMode i = false := by
      cases i <;> first | rfl | exact absurd rfl hc | exact absurd rfl hg
    have hap : applyMapping r i s = .error .fileExists := by
      unfold applyMapping
      rw [hsrc]
      rw [hmode]
      simp only [Bool.false_eq_true, if_false]
      rw [copytree_exists_err hex]
    simp only [applyMappings, hap]
  · intro r t s hsrc hov
    unfold applyMapping
    rw [hsrc]
    rw [show isOverlayMode .gen = true from rfl]
    simp only [if_true]
    rcases ho : overlay t (mapDst .gen) s.fs with ⟨fs', ns, err⟩
    rw [ho] at hov
    simp only at hov
    subst hov
    simp

theorem claim_C1_amended_witness :
    mapSrc exRepo1 .proto = some exProto ∧
    exStProto.fs.pathExists (mapDst .proto) = true ∧
    applyMappings exRepo1 [.proto, .exc] exStProto = .error .fileExists ∧
    mapSrc exRepo2 .gen = some exB ∧
    exFsGen.isFile ["java", "org", "tensorflow", "x.txt"] = true ∧
    (overlay exB (mapDst .gen) exFsGen).err = none ∧
    (overlay exB (mapDst .gen) exFsGen).notices = [["java", "org", "tensorflow", "x.txt"]] ∧
    applyMapping exRepo2 .gen ⟨exFsGen, []⟩ =
      .ok ⟨(overlay exB (mapDst .gen) exFsGen).fs,
           [] ++ (overlay exB (mapDst .gen) exFsGen).notices⟩ :=
  ⟨rfl, rfl,
    claim_C1_amended.1 exRepo1 .proto exProto [.exc] exStProto
      (by decide) (by decide) rfl rfl,
    rfl, rfl, rfl, rfl,
    claim_C1_amended.2 exRepo2 exB ⟨exFsGen, []⟩ rfl rfl⟩

/-- C3 fails as stated: the `try` block of the augmentation step catches only
`subprocess.CalledProcessError`; an error raised while copying the generated
output (here: the copy destination `java/org/tensorflow/ops` already exists
because the primary sources contain it) escalates out of the degraded
composition instead of being logged. -/
theorem claim_C3_counterexample :
    build_traditional_tensorflow_java_docs (some exPrimaryOps) (.built (some exOps)) true
      emptyFS = .error .fileExists := rfl

/-- C3 (amended): only a failure of the external build tool signaled as
`CalledProcessError` (nonzero exit of `bazel build`) is caught and logged by
the augmentation step; errors while spawning the external processes or while
copying the generated output escalate to the caller.  In the caught case the
degraded composition returns normally and the degraded tree still contains
every primary-source file byte-identically. -/
theorem claim_C3_amended (pt : Tree) (fs fs1 : FS)
    (hw : pt.WF = true) (hc : copytree pt ["java"] fs = .ok fs1) :
    build_traditional_tensorflow_java_docs (some pt) .exitNonzero true fs = .ok fs1 ∧
    (∀ p c, pt.lookupPath p = some (.file c) →
      lookupF fs1.files ("java" :: p) = some c) ∧
    (∀ (opT : Tree) (fs2 : FS), fs2.pathExists ["java", "org", "tensorflow", "ops"] = true →
      copytree opT ["java", "org", "tensorflow", "ops"] fs2 = .error .fileExists) ∧
    build_traditional_tensorflow_java_docs (some pt) .spawnFail true fs =
      .error .spawnFail := by
  have hshape : ∀ er : Err, copytree pt ["java"] fs = .error er → False := by
    intro er he
    rw [he] at hc
    cases hc
  refine ⟨?_, ?_, fun opT fs2 h2 => copytree_exists_err h2, ?_⟩
  · have hred : build_traditional_tensorflow_java_docs (some pt) .exitNonzero true fs =
        (match copytree pt ["java"] fs with
         | Except.error er => Except.error er
         | Except.ok fsx => Except.ok fsx) := rfl
    rw [hred, hc]
  · intro p c hp
    cases hex : fs.pathExists ["java"] with
    | true => exact absurd (copytree_exists_err hex) (fun he => hshape _ he)
    | false =>
      cases hmk : (fs.mkdirP ["java"]).2 with
      | some er => exact absurd (copytree_err_shape hex hmk) (fun he => hshape _ he)
      | none =>
        rw [copytree_ok_shape hex hmk] at hc
        have hfs1 : copyAll pt ["java"] (fs.mkdirP ["java"]).1 = fs1 := by
          injection hc
        rw [← hfs1]
        exact copyAll_file hw hp
  · have hred : build_traditional_tensorflow_java_docs (some pt) .spawnFail true fs =
        (match copytree pt ["java"] fs with
         | Except.error er => Except.error er
         | Except.ok _ => Except.error Err.spawnFail) := rfl
    rw [hred, hc]

theorem claim_C3_amended_witness :
    exB.WF = true ∧ copytree exB ["java"] emptyFS = .ok exFsJavaB ∧
    build_traditional_tensorflow_java_docs (some exB) .exitNonzero true emptyFS =
      .ok exFsJavaB ∧
    lookupF exFsJavaB.files ["java", "x.txt"] = some "b" :=
  ⟨rfl, rfl, (claim_C3_amended exB emptyFS exFsJavaB rfl rfl).1,
    (claim_C3_amended exB emptyFS exFsJavaB rfl rfl).2.1 ["x.txt"] "b" rfl⟩

/-! ### Claim theorems: the overlay guarantee -/

theorem nodup_split_right {es1 es2 : List (FPath × FSEntry)} {x : FPath × FSEntry}
    (h : (pathsOf (es1 ++ x :: es2)).Nodup) : ∀ y ∈ es2, y.1 ≠ x.1 := by
  rw [pathsOf_append] at h
  have h2 := (List.nodup_append.mp h).2.1
  rw [show pathsOf (x :: es2) = x.1 :: pathsOf es2 from rfl] at h2
  have h3 := (List.nodup_cons.mp h2).1
  intro y hy hxy
  exact h3 (hxy ▸ pathsOf_mem.mpr ⟨y.2, by rw [show (y.1, y.2) = y from rfl]; exact hy⟩)

/-- C2: after `overlay(source_root, dest_root)` returns normally, every file
present under the source root has a byte-identical counterpart at the
matching relative path under the destination root, and no file that was
present under the destination before the call has been removed. -/
theorem claim_C2_overlay_guarantee (t : Tree) (dst : FPath) (fs : FS)
    (hw : t.WF = true) (hok : (overlay t dst fs).err = none) :
    (∀ p c, t.lookupPath p = some (.file c) →
      lookupF (overlay t dst fs).fs.files (dst ++ p) = some c) ∧
    (∀ q, (lookupF fs.files q).isSome = true →
      (lookupF (overlay t dst fs).fs.files q).isSome = true) := by
  constructor
  · intro p c hp
    have hmem : (dst ++ p, FSEntry.file c) ∈ destEntries dst t :=
      destEntries_file_of_lookup hp
    obtain ⟨es1, es2, hsplit⟩ := List.append_of_mem hmem
    have hnd : (pathsOf (destEntries dst t)).Nodup := destEntries_nodup hw
    rw [show overlay t dst fs = runEntries fs (destEntries dst t) from rfl] at hok ⊢
    rw [hsplit] at hok hnd ⊢
    cases her1 : (runEntries fs es1).err with
    | some er =>
      rw [run_append_err _ _ _ her1] at hok
      rw [her1] at hok
      cases hok
    | none =>
      rw [run_append_ok _ _ _ her1] at hok ⊢
      simp only at hok ⊢
      cases hes : (stepEntry (runEntries fs es1).fs (dst ++ p) (.file c)).err with
      | some er =>
        rw [run_cons_err hes] at hok
        rw [hes] at hok
        cases hok
      | none =>
        rw [run_cons_ok hes] at hok ⊢
        simp only at hok ⊢
        rw [run_files_other es2 _ (nodup_split_right hnd)]
        exact (step_file_ok hes).1
  · intro q h
    exact run_isSome_mono _ fs h

theorem claim_C2_witness :
    exB.WF = true ∧ (overlay exB ["ns", "sub"] exFsA).err = none ∧
    lookupF (overlay exB ["ns", "sub"] exFsA).fs.files (["ns", "sub"] ++ ["x.txt"]) =
      some "b" ∧
    (lookupF (overlay exB ["ns", "sub"] exFsA).fs.files ["ns", "a.txt"]).isSome = true :=
  ⟨rfl, rfl,
    (claim_C2_overlay_guarantee exB ["ns", "sub"] exFsA rfl rfl).1 ["x.txt"] "b" rfl,
    (claim_C2_overlay_guarantee exB ["ns", "sub"] exFsA rfl rfl).2 ["ns", "a.txt"] rfl⟩

/-! ### Claim theorems: type collisions abort `overlay` -/

theorem runA {d : FPath} : ∀ (es : List (FPath × FSEntry)) (fs : FS),
    fs.isFile d = true → fs.isDir d = false →
    (∀ x ∈ es, x = (d, FSEntry.dirE) ∨ x.1 ≠ d) →
    (lookupF (runEntries fs es).fs.files d = lookupF fs.files d ∧
     (runEntries fs es).fs.isDir d = false) ∧
    ((d, FSEntry.dirE) ∈ es → (runEntries fs es).err.isSome = true) := by
  intro es
  induction es with
  | nil =>
    intro fs _ hd _
    exact ⟨⟨rfl, hd⟩, fun h => by cases h⟩
  | cons x rest ih =>
    intro fs hf hd hcond
    rcases hcond x (List.mem_cons_self _ _) with hx | hx
    · subst hx
      have hex : fs.pathExists d = true := by
        unfold FS.pathExists
        rw [hf]
        rfl
      have hstep : stepEntry fs d .dirE = ⟨fs, [], some .fileExists⟩ :=
        step_dir_clash hd hex
      rw [run_cons_err (show (stepEntry fs d FSEntry.dirE).err = some Err.fileExists
        by rw [hstep])]
      rw [hstep]
      exact ⟨⟨rfl, hd⟩, fun _ => rfl⟩
    · obtain ⟨p, e⟩ := x
      have hpd : p ≠ d := hx
      have hlook : lookupF (stepEntry fs p e).fs.files d = lookupF fs.files d :=
        step_files_other (fun h => hpd h.symm)
      have hf' : (stepEntry fs p e).fs.isFile d = true := by
        unfold FS.isFile at hf ⊢
        rw [hlook]
        exact hf
      have hd' : (stepEntry fs p e).fs.isDir d = false := by
        cases hdd : (stepEntry fs p e).fs.isDir d with
        | false => rfl
        | true =>
          exfalso
          cases e with
          | file c =>
            rcases step_dirs_new_file hdd with h1 | ⟨_, _, h3⟩
            · rw [h1] at hd; cases hd
            · rw [h3] at hf; cases hf
          | dirE =>
            rcases step_dirs_new_dir hdd with h1 | h1
            · rw [h1] at hd; cases hd
            · exact hpd h1.symm
      cases hes : (stepEntry fs p e).err with
      | some er =>
        rw [run_cons_err hes]
        exact ⟨⟨hlook, hd'⟩, fun _ => by rw [hes]; rfl⟩
      | none =>
        rw [run_cons_ok hes]
        simp only
        obtain ⟨⟨ih1, ih2⟩, ih3⟩ := ih (stepEntry fs p e).fs hf' hd'
          (fun y hy => hcond y (List.mem_cons_of_mem _ hy))
        refine ⟨⟨by rw [ih1, hlook], ih2⟩, fun hm => ?_⟩
        rcases List.mem_cons.mp hm with he | hm'
        · exact absurd (congrArg Prod.fst he).symm hpd
        · exact ih3 hm'

theorem runB {d : FPath} : ∀ (es : List (FPath × FSEntry)) (fs : FS),
    fs.isDir d = true →
    (lookupF (runEntries fs es).fs.files d = lookupF fs.files d) ∧
    ((∃ c, (d, FSEntry.file c) ∈ es) → (runEntries fs es).err.isSome = true) := by
  intro es
  induction es with
  | nil =>
    intro fs _
    exact ⟨rfl, fun ⟨c, hc⟩ => by cases hc⟩
  | cons x rest ih =>
    intro fs hd
    obtain ⟨p, e⟩ := x
    by_cases hpd : p = d
    · subst hpd
      cases e with
      | file c =>
        have hex : fs.pathExists p = true := by
          unfold FS.pathExists
          rw [hd]
          simp
        have hcf : fs.copyfile p c = (fs, some .isADirectory) := by
          unfold FS.copyfile
          rw [hd]
          rfl
        have hstep : stepEntry fs p (.file c) = ⟨fs, [p], some .isADirectory⟩ := by
          rw [step_file_exists hex, hcf]
        rw [run_cons_err (show (stepEntry fs p (FSEntry.file c)).err = some Err.isADirectory
          by rw [hstep])]
        rw [hstep]
        exact ⟨rfl, fun _ => rfl⟩
      | dirE =>
        have hstep := step_dir_already hd
        rw [run_cons_ok (show (stepEntry fs p FSEntry.dirE).err = none by rw [hstep])]
        simp only
        rw [hstep]
        obtain ⟨ih1, ih2⟩ := ih fs hd
        refine ⟨ih1, fun ⟨c, hc⟩ => ?_⟩
        rcases List.mem_cons.mp hc with he | hm
        · exact FSEntry.noConfusion (congrArg Prod.snd he)
        · exact ih2 ⟨c, hm⟩
    · have hlook : lookupF (stepEntry fs p e).fs.files d = lookupF fs.files d :=
        step_files_other (fun h => hpd h.symm)
      have hd' : (stepEntry fs p e).fs.isDir d = true := step_dirs_mono hd
      cases hes : (stepEntry fs p e).err with
      | some er =>
        rw [run_cons_err hes]
        exact ⟨hlook, fun _ => by rw [hes]; rfl⟩
      | none =>
        rw [run_cons_ok hes]
        simp only
        obtain ⟨ih1, ih2⟩ := ih _ hd'
        refine ⟨by rw [ih1, hlook], fun ⟨c, hc⟩ => ?_⟩
        rcases List.mem_cons.mp hc with he | hm
        · exact absurd (congrArg Prod.fst he) (fun hh => hpd hh.symm)
        · exact ih2 ⟨c, hm⟩

/-- C9: `overlay` does not handle file/directory type collisions: when some
directory of the source corresponds to an existing regular file at the
matching destination path, or some file of the source corresponds to an
existing directory there, `overlay` raises instead of replacing the entry,
and the conflicting destination entry is left in place (same file content,
same directory status). -/
theorem claim_C9_type_collision (t : Tree) (dst : FPath) (fs : FS) (p : FPath)
    (hw : t.WF = true)
    (h : (∃ sub, t.lookupPath p = some (.dir sub) ∧ fs.isFile (dst ++ p) = true ∧
            fs.isDir (dst ++ p) = false) ∨
         (∃ c, t.lookupPath p = some (.file c) ∧ fs.isDir (dst ++ p) = true)) :
    (overlay t dst fs).err.isSome = true ∧
    lookupF (overlay t dst fs).fs.files (dst ++ p) = lookupF fs.files (dst ++ p) ∧
    (overlay t dst fs).fs.isDir (dst ++ p) = fs.isDir (dst ++ p) := by
  rcases h with ⟨sub, hp, hf, hd⟩ | ⟨c, hp, hd⟩
  · have hcond : ∀ x ∈ destEntries dst t,
        x = (dst ++ p, FSEntry.dirE) ∨ x.1 ≠ dst ++ p := by
      intro x hx
      obtain ⟨p', k, hxe, hm⟩ := destEntries_mem.mp hx
      by_cases hpp : p' = p
      · subst hpp
        obtain ⟨e, he, hk⟩ := mem_lookupPath p' t k hw hm
        rw [hp] at he
        injection he with he'
        left
        rw [hxe, ← hk, ← he']
        rfl
      · right
        rw [hxe]
        intro hc
        exact hpp (List.append_cancel_left hc)
    obtain ⟨⟨h1, h2⟩, h3⟩ := runA (destEntries dst t) fs hf hd hcond
    refine ⟨h3 (destEntries_dir_of_lookup hp), h1, ?_⟩
    rw [show overlay t dst fs = runEntries fs (destEntries dst t) from rfl, h2, hd]
  · obtain ⟨h1, h2⟩ := runB (destEntries dst t) fs hd
    refine ⟨h2 ⟨c, destEntries_file_of_lookup hp⟩, h1, ?_⟩
    rw [hd]
    exact run_dirs_mono _ fs hd

theorem claim_C9_witness :
    exDirTree.WF = true ∧
    exDirTree.lookupPath ["d"] = some (.dir .nil) ∧
    exFsConflict.isFile (["dst"] ++ ["d"]) = true ∧
    exFsConflict.isDir (["dst"] ++ ["d"]) = false ∧
    (overlay exDirTree ["dst"] exFsConflict).err.isSome = true ∧
    lookupF (overlay exDirTree ["dst"] exFsConflict).fs.files (["dst"] ++ ["d"]) =
      lookupF exFsConflict.files (["dst"] ++ ["d"]) :=
  ⟨rfl, rfl, rfl, rfl,
    (claim_C9_type_collision exDirTree ["dst"] exFsConflict ["d"] rfl
      (Or.inl ⟨.nil, rfl, rfl, rfl⟩)).1,
    (claim_C9_type_collision exDirTree ["dst"] exFsConflict ["d"] rfl
      (Or.inl ⟨.nil, rfl, rfl, rfl⟩)).2.1⟩

/-! ### Claim theorems: fallback is all-or-nothing -/

theorem copyAll_java_files (pt : Tree) (q : FPath)
    (h : (lookupF (copyAll pt ["java"]
      ((⟨[], []⟩ : FS).mkdirP ["java"]).1).files q).isSome = true) :
    ∃ p c, q = "java" :: p ∧ (p, FSEntry.file c) ∈ pt.rglob := by
  rcases copyAll_files_new h with h' | ⟨p, c, hq, hm⟩
  · rw [mkdirP_files] at h'
    simp [lookupF] at h'
  · exact ⟨p, c, hq, hm⟩

theorem traditional_files (pt : Tree) (bazel : BazelOutcome) (gen_ops : Bool) (fsd : FS)
    (hok : build_traditional_tensorflow_java_docs (some pt) bazel gen_ops ⟨[], []⟩ =
      .ok fsd) :
    ∀ q, (lookupF fsd.files q).isSome = true →
      (∃ p c, q = "java" :: p ∧ (p, FSEntry.file c) ∈ pt.rglob) ∨
      (∃ opT p c, bazel = .built (some opT) ∧
        q = "java" :: "org" :: "tensorflow" :: "ops" :: p ∧
        (p, FSEntry.file c) ∈ opT.rglob) := by
  have hct : copytree pt ["java"] ⟨[], []⟩ =
      .ok (copyAll pt ["java"] ((⟨[], []⟩ : FS).mkdirP ["java"]).1) :=
    copytree_ok_shape rfl rfl
  intro q hq
  cases gen_ops with
  | false =>
    have hred : build_traditional_tensorflow_java_docs (some pt) bazel false ⟨[], []⟩ =
        (match copytree pt ["java"] (⟨[], []⟩ : FS) with
         | Except.error e => Except.error e
         | Except.ok fsx => Except.ok fsx) := rfl
    rw [hred, hct] at hok
    injection hok with hfsd
    rw [← hfsd] at hq
    exact Or.inl (copyAll_java_files pt q hq)
  | true =>
    cases bazel with
    | exitNonzero =>
      have hred : build_traditional_tensorflow_java_docs (some pt) .exitNonzero true
          ⟨[], []⟩ =
          (match copytree pt ["java"] (⟨[], []⟩ : FS) with
           | Except.error e => Except.error e
           | Except.ok fsx => Except.ok fsx) := rfl
      rw [hred, hct] at hok
      injection hok with hfsd
      rw [← hfsd] at hq
      exact Or.inl (copyAll_java_files pt q hq)
    | spawnFail =>
      have hred : build_traditional_tensorflow_java_docs (some pt) .spawnFail true
          ⟨[], []⟩ =
          (match copytree pt ["java"] (⟨[], []⟩ : FS) with
           | Except.error e => Except.error e
           | Except.ok _ => Except.error Err.spawnFail) := rfl
      rw [hred, hct] at hok
      cases hok
    | built op =>
      cases op with
      | none =>
        have hred : build_traditional_tensorflow_java_docs (some pt) (.built none) true
            ⟨[], []⟩ =
            (match copytree pt ["java"] (⟨[], []⟩ : FS) with
             | Except.error e => Except.error e
             | Except.ok fsx => Except.ok fsx) := rfl
        rw [hred, hct] at hok
        injection hok with hfsd
        rw [← hfsd] at hq
        exact Or.inl (copyAll_java_files pt q hq)
      | some opT =>
        have hred : build_traditional_tensorflow_java_docs (some pt) (.built (some opT))
            true ⟨[], []⟩ =
            (match copytree pt ["java"] (⟨[], []⟩ : FS) with
             | Except.error e => Except.error e
             | Except.ok fsx =>
               match copytree opT ["java", "org", "tensorflow", "ops"] fsx with
               | Except.ok fs2 => Except.ok fs2
               | Except.error e => Except.error e) := rfl
        rw [hred, hct] at hok
        have hok2 : (match copytree opT ["java", "org", "tensorflow", "ops"]
              (copyAll pt ["java"] ((⟨[], []⟩ : FS).mkdirP ["java"]).1) with
            | Except.ok fs2 => Except.ok fs2
            | Except.error e => Except.error e) = Except.ok fsd := hok
        cases hex2 : (copyAll pt ["java"]
            ((⟨[], []⟩ : FS).mkdirP ["java"]).1).pathExists
            ["java", "org", "tensorflow", "ops"] with
        | true =>
          rw [copytree_exists_err hex2] at hok2
          cases hok2
        | false =>
          cases hmk2 : ((copyAll pt ["java"]
              ((⟨[], []⟩ : FS).mkdirP ["java"]).1).mkdirP
              ["java", "org", "tensorflow", "ops"]).2 with
          | some er2 =>
            rw [copytree_err_shape hex2 hmk2] at hok2
            cases hok2
          | none =>
            rw [copytree_ok_shape hex2 hmk2] at hok2
            injection hok2 with hfsd
            rw [← hfsd] at hq
            rcases copyAll_files_new hq with h' | ⟨p, c, hqp, hm⟩
            · rw [mkdirP_files] at h'
              exact Or.inl (copyAll_java_files pt q h')
            · exact Or.inr ⟨opT, p, c, rfl, hqp, hm⟩

/-- C4: when the full composition raises, the partially built merged tree is
discarded and a fresh tree is built by the degraded composition from only the
locally available sources, so the tree handed to documentation generation
contains no residual file from the aborted attempt: every file of the final
tree comes from the primary source tree (under `java/`) or from the
locally-generated ops output (under `java/org/tensorflow/ops/`). -/
theorem claim_C4_all_or_nothing (sync : Except Err RepoLayout) (primary : Option Tree)
    (bazel : BazelOutcome) (gen_ops : Bool) (er : Err) (fsd : FS)
    (hfail : build_comprehensive_java_docs sync ⟨[], []⟩ = .error er)
    (hok : build_traditional_tensorflow_java_docs primary bazel gen_ops ⟨[], []⟩ =
      .ok fsd) :
    main sync primary bazel gen_ops = .ok fsd ∧
    ∀ q, (lookupF fsd.files q).isSome = true →
      (∃ pt p c, primary = some pt ∧ q = "java" :: p ∧ (p, FSEntry.file c) ∈ pt.rglob) ∨
      (∃ opT p c, bazel = .built (some opT) ∧
        q = "java" :: "org" :: "tensorflow" :: "ops" :: p ∧
        (p, FSEntry.file c) ∈ opT.rglob) := by
  constructor
  · unfold main
    rw [hfail]
    exact hok
  · intro q hq
    cases primary with
    | none =>
      have hfsd : (⟨[], []⟩ : FS) = fsd := by
        injection hok
      rw [← hfsd] at hq
      simp [lookupF] at hq
    | some pt =>
      rcases traditional_files pt bazel gen_ops fsd hok q hq with ⟨p, c, h1, h2⟩ | h'
      · exact Or.inl ⟨pt, p, c, rfl, h1, h2⟩
      · exact Or.inr h'

theorem claim_C4_witness :
    build_comprehensive_java_docs (.error .syncFail) ⟨[], []⟩ = .error .syncFail ∧
    build_traditional_tensorflow_java_docs (some exB) .exitNonzero true ⟨[], []⟩ =
      .ok exFsJavaB ∧
    main (.error .syncFail) (some exB) .exitNonzero true = .ok exFsJavaB :=
  ⟨rfl, rfl,
    (claim_C4_all_or_nothing (.error .syncFail) (some exB) .exitNonzero true
      .syncFail exFsJavaB rfl rfl).1⟩

/-! ### Claim theorems: `overlay` idempotence -/

theorem done_ext {fs1 fs2 : FS} {p : FPath} {e : FSEntry}
    (hfiles : ∀ q, lookupF fs1.files q = lookupF fs2.files q)
    (hdirs : ∀ q, fs1.isDir q = fs2.isDir q)
    (h : doneEntry fs2 p e) : doneEntry fs1 p e := by
  cases e with
  | file c =>
    exact ⟨by rw [hfiles p]; exact h.1, by rw [hdirs p]; exact h.2.1,
      by rw [hdirs p.dropLast]; exact h.2.2⟩
  | dirE =>
    show fs1.isDir p = true
    rw [hdirs p]
    exact h

theorem done_run : ∀ (es : List (FPath × FSEntry)) (fs : FS),
    (∀ x ∈ es, doneEntry fs x.1 x.2) →
    (runEntries fs es).err = none ∧
    (∀ q, lookupF (runEntries fs es).fs.files q = lookupF fs.files q) ∧
    (∀ q, (runEntries fs es).fs.isDir q = fs.isDir q) ∧
    (runEntries fs es).notices =
      es.filterMap
        (fun x => match x.2 with | FSEntry.file _ => some x.1 | FSEntry.dirE => none) := by
  intro es
  induction es with
  | nil => intro fs _; exact ⟨rfl, fun _ => rfl, fun _ => rfl, rfl⟩
  | cons x rest ih =>
    intro fs hdone
    obtain ⟨p, e⟩ := x
    have hx := hdone (p, e) (List.mem_cons_self _ _)
    cases e with
    | file c =>
      obtain ⟨hl, hd, hpar⟩ := hx
      have hex : fs.pathExists p = true := by
        unfold FS.pathExists FS.isFile
        rw [hl]
        rfl
      have hcf : fs.copyfile p c = (fs.writeFile p c, none) := by
        unfold FS.copyfile
        rw [hd, hpar]
        rfl
      have hstep : stepEntry fs p (.file c) = ⟨fs.writeFile p c, [p], none⟩ := by
        rw [step_file_exists hex, hcf]
      have hfiles : ∀ q, lookupF (fs.writeFile p c).files q = lookupF fs.files q := by
        intro q
        by_cases hq : q = p
        · subst hq
          rw [show (fs.writeFile q c).files = (q, c) :: fs.files from rfl,
            lookupF_cons_self, hl]
        · rw [show (fs.writeFile p c).files = (p, c) :: fs.files from rfl,
            lookupF_cons_other hq]
      have hdirs : ∀ q, (fs.writeFile p c).isDir q = fs.isDir q := fun q => rfl
      have hdone' : ∀ y ∈ rest, doneEntry (fs.writeFile p c) y.1 y.2 := fun y hy =>
        done_ext hfiles hdirs (hdone y (List.mem_cons_of_mem _ hy))
      obtain ⟨ih1, ih2, ih3, ih4⟩ := ih (fs.writeFile p c) hdone'
      rw [run_cons_ok (show (stepEntry fs p (FSEntry.file c)).err = none by rw [hstep])]
      rw [hstep]
      refine ⟨ih1, ?_, ?_, ?_⟩
      · intro q
        show lookupF (runEntries (fs.writeFile p c) rest).fs.files q = lookupF fs.files q
        rw [ih2 q, hfiles q]
      · intro q
        show (runEntries (fs.writeFile p c) rest).fs.isDir q = fs.isDir q
        rw [ih3 q]
        exact hdirs q
      · show [p] ++ (runEntries (fs.writeFile p c) rest).notices = _
        rw [ih4]
        rfl
    | dirE =>
      have hstep : stepEntry fs p .dirE = ⟨fs, [], none⟩ := step_dir_already hx
      obtain ⟨ih1, ih2, ih3, ih4⟩ := ih fs (fun y hy => hdone y (List.mem_cons_of_mem _ hy))
      rw [run_cons_ok (show (stepEntry fs p FSEntry.dirE).err = none by rw [hstep])]
      rw [hstep]
      refine ⟨ih1, ?_, ?_, ?_⟩
      · intro q
        show lookupF (runEntries fs rest).fs.files q = lookupF fs.files q
        rw [ih2 q]
      · intro q
        show (runEntries fs rest).fs.isDir q = fs.isDir q
        rw [ih3 q]
      · show [] ++ (runEntries fs rest).notices = _
        rw [ih4]
        rfl

theorem first_run_done : ∀ (es : List (FPath × FSEntry)) (fs : FS),
    (pathsOf es).Nodup →
    (∀ x ∈ es, ∀ y ∈ es, (∃ c, x.2 = FSEntry.file c) → x.1 ≠ y.1 → ¬ isPre x.1 y.1) →
    (runEntries fs es).err = none →
    ∀ x ∈ es, doneEntry (runEntries fs es).fs x.1 x.2 := by
  intro es
  induction es with
  | nil => intro fs _ _ _ x hx; cases hx
  | cons z rest ih =>
    intro fs hnd hP hok x hx
    obtain ⟨p, e⟩ := z
    rw [show pathsOf ((p, e) :: rest) = p :: pathsOf rest from rfl] at hnd
    have hnd' : (pathsOf rest).Nodup := (List.nodup_cons.mp hnd).2
    have hphead : p ∉ pathsOf rest := (List.nodup_cons.mp hnd).1
    cases hes : (stepEntry fs p e).err with
    | some er =>
      rw [run_cons_err hes] at hok
      rw [hes] at hok
      cases hok
    | none =>
      rw [run_cons_ok hes] at hok ⊢
      rcases List.mem_cons.mp hx with hxe | hx'
      · subst hxe
        cases e with
        | file c =>
          obtain ⟨hl, hd, hpar⟩ := step_file_ok hes
          have hother : ∀ y ∈ rest, y.1 ≠ p := by
            intro y hy hyp
            exact hphead (hyp ▸ pathsOf_mem.mpr
              ⟨y.2, by rw [show (y.1, y.2) = y from rfl]; exact hy⟩)
          refine ⟨?_, ?_, ?_⟩
          · rw [run_files_other rest _ hother]
            exact hl
          · cases hdd : (runEntries (stepEntry fs p (.file c)).fs rest).fs.isDir p with
            | false => rfl
            | true =>
              exfalso
              rcases run_dirs_new rest _ hdd with h1 | ⟨y, hy, hpre⟩
              · rw [h1] at hd
                cases hd
              · by_cases hpy : p = y.1
                · exact hother y hy hpy.symm
                · exact hP (p, .file c) (List.mem_cons_self _ _) y
                    (List.mem_cons_of_mem _ hy) ⟨c, rfl⟩ hpy hpre
          · exact run_dirs_mono rest _ hpar
        | dirE =>
          exact run_dirs_mono rest _ (step_dir_ok hes)
      · refine ih (stepEntry fs p e).fs hnd' ?_ hok x hx'
        intro a ha b hb hf hne
        exact hP a (List.mem_cons_of_mem _ ha) b (List.mem_cons_of_mem _ hb) hf hne

theorem lookupPath_append : ∀ (a : FPath) (t : Tree) (b : FPath) (e : TEntry),
    a ≠ [] → b ≠ [] → t.lookupPath (a ++ b) = some e →
    ∃ sub, t.lookupPath a = some (.dir sub) := by
  intro a
  induction a with
  | nil => intro t b e ha _ _; exact absurd rfl ha
  | cons n a' ih =>
    intro t b e _ hb h
    cases a' with
    | nil =>
      cases b with
      | nil => exact absurd rfl hb
      | cons m r =>
        rw [show (([n] ++ m :: r : FPath)) = n :: m :: r from rfl, lookupPath_cons] at h
        cases hf : t.find n with
        | none => rw [hf] at h; cases h
        | some ent =>
          cases ent with
          | file c => rw [hf] at h; cases h
          | dir sub => exact ⟨sub, by rw [lookupPath_single, hf]⟩
    | cons m' r' =>
      rw [show (((n :: m' :: r') ++ b : FPath)) = n :: (m' :: (r' ++ b)) from rfl,
        lookupPath_cons] at h
      cases hf : t.find n with
      | none => rw [hf] at h; cases h
      | some ent =>
        cases ent with
        | file c => rw [hf] at h; cases h
        | dir sub =>
          rw [hf] at h
          simp only at h
          obtain ⟨sub2, hsub2⟩ := ih sub b e (by simp) hb h
          refine ⟨sub2, ?_⟩
          rw [lookupPath_cons, hf]
          exact hsub2

theorem kindOf_file {e : TEntry} {c : String} (h : kindOf e = FSEntry.file c) :
    e = TEntry.file c := by
  cases e with
  | file c' =>
    injection h with h'
    rw [h']
  | dir sub => cases h

theorem rglob_no_pre {t : Tree} (hw : t.WF = true) :
    ∀ x ∈ t.rglob, ∀ y ∈ t.rglob, (∃ c, x.2 = FSEntry.file c) → x.1 ≠ y.1 →
    ¬ isPre x.1 y.1 := by
  intro x hx y hy hex hne hpre
  obtain ⟨c, hc⟩ := hex
  obtain ⟨r, hr⟩ := hpre
  have hrne : r ≠ [] := by
    intro h0
    subst h0
    rw [List.append_nil] at hr
    exact hne hr
  obtain ⟨e1, he1, hk1⟩ := mem_lookupPath x.1 t x.2 hw
    (by rw [show (x.1, x.2) = x from rfl]; exact hx)
  have he1' : e1 = TEntry.file c := kindOf_file (by rw [hk1, hc])
  subst he1'
  obtain ⟨e2, he2, _⟩ := mem_lookupPath y.1 t y.2 hw
    (by rw [show (y.1, y.2) = y from rfl]; exact hy)
  rw [← hr] at he2
  have hx1ne : x.1 ≠ [] := rglob_ne_nil hx
  obtain ⟨sub, hsub⟩ := lookupPath_append x.1 t r e2 hx1ne hrne he2
  rw [he1] at hsub
  injection hsub with hsub'
  exact TEntry.noConfusion hsub'

theorem isPre_append_cancel {dst a b : FPath} (h : isPre (dst ++ a) (dst ++ b)) :
    isPre a b := by
  obtain ⟨r, hr⟩ := h
  rw [List.append_assoc] at hr
  exact ⟨r, List.append_cancel_left hr⟩

theorem destEntries_no_pre {dst : FPath} {t : Tree} (hw : t.WF = true) :
    ∀ x ∈ destEntries dst t, ∀ y ∈ destEntries dst t,
      (∃ c, x.2 = FSEntry.file c) → x.1 ≠ y.1 → ¬ isPre x.1 y.1 := by
  intro x hx y hy hex hne hpre
  obtain ⟨c, hc⟩ := hex
  obtain ⟨px, kx, hxe, hmx⟩ := destEntries_mem.mp hx
  obtain ⟨py, ky, hye, hmy⟩ := destEntries_mem.mp hy
  subst hxe
  subst hye
  have hpp : isPre px py := isPre_append_cancel hpre
  have hnn : px ≠ py := fun h => hne (by rw [show ((dst ++ px, kx) : FPath × FSEntry).1 =
    dst ++ px from rfl, show ((dst ++ py, ky) : FPath × FSEntry).1 = dst ++ py from rfl, h])
  exact rglob_no_pre hw (px, kx) hmx (py, ky) hmy ⟨c, hc⟩ hnn hpp

theorem destEntries_filterMap (dst : FPath) (t : Tree) :
    (destEntries dst t).filterMap
      (fun x => match x.2 with | FSEntry.file _ => some x.1 | FSEntry.dirE => none) =
    fileDests dst t := by
  unfold destEntries fileDests
  rw [List.filterMap_map]
  rfl

/-- C7: `overlay` is idempotent — after a first run that returned normally,
a second run with the unchanged source returns normally, changes no file
content and no directory of the destination, and differs observably only in
printing a duplicate-write notice for every file of the source. -/
theorem claim_C7_idempotent (t : Tree) (dst : FPath) (fs : FS)
    (hw : t.WF = true) (hok : (overlay t dst fs).err = none) :
    (overlay t dst (overlay t dst fs).fs).err = none ∧
    (∀ q, lookupF (overlay t dst (overlay t dst fs).fs).fs.files q =
      lookupF (overlay t dst fs).fs.files q) ∧
    (∀ q, (overlay t dst (overlay t dst fs).fs).fs.isDir q =
      (overlay t dst fs).fs.isDir q) ∧
    (overlay t dst (overlay t dst fs).fs).notices = fileDests dst t := by
  have hdone : ∀ x ∈ destEntries dst t,
      doneEntry (runEntries fs (destEntries dst t)).fs x.1 x.2 :=
    first_run_done (destEntries dst t) fs (destEntries_nodup hw)
      (destEntries_no_pre hw) hok
  obtain ⟨h1, h2, h3, h4⟩ := done_run (destEntries dst t)
    (runEntries fs (destEntries dst t)).fs hdone
  refine ⟨h1, h2, h3, ?_⟩
  rw [show overlay t dst (overlay t dst fs).fs =
    runEntries (runEntries fs (destEntries dst t)).fs (destEntries dst t) from rfl]
  rw [h4, destEntries_filterMap]

theorem claim_C7_witness :
    exB.WF = true ∧ (overlay exB ["ns", "sub"] exFsA).err = none ∧
    (overlay exB ["ns", "sub"] (overlay exB ["ns", "sub"] exFsA).fs).err = none ∧
    (overlay exB ["ns", "sub"] (overlay exB ["ns", "sub"] exFsA).fs).notices =
      fileDests ["ns", "sub"] exB :=
  ⟨rfl, rfl, (claim_C7_idempotent exB ["ns", "sub"] exFsA rfl rfl).1,
    (claim_C7_idempotent exB ["ns", "sub"] exFsA rfl rfl).2.2.2⟩

end JavaDocs
